import Mathlib

/-!
Verification of the Kairoi scheduling service, as a shallow embedding of the
relevant Rust sources.

Modelling conventions, used throughout:

* Rust `String`s are UTF-8 byte sequences; we model them as `List Nat` (one
  `Nat` per byte).  `String::len` is the byte count and `str::starts_with`
  compares byte prefixes, so `List.length` and `List.isPrefixOf` match the
  source exactly.
* `DateTime<Utc>` values flow through the code only via their
  `timestamp_nanos()` representation (a signed 64-bit count of nanoseconds
  since the epoch), so execution instants are modelled as `Int`.
* `HashMap<String, V>` is modelled as a function `List Nat → Option V`;
  `HashMap::insert` is pointwise update.  Where the source iterates over a
  `HashMap`'s values in arbitrary order, we model the collection as a `List`
  and only prove order-insensitive statements.
* Fallible IO (file writes) is modelled by an explicit success flag supplied
  to the operation; fallible pure code returns `Option`.
-/

namespace Kairoi

/-- A Rust `String`, seen as its UTF-8 byte sequence. -/
abbrev Bytes := List Nat

/-- Source `database::job::Status` and `database::storage::job::Status`: the status
of a job, either Planned, Triggered, Executed or Failed. -/
inductive Status where
  | planned
  | triggered
  | executed
  | failed
deriving DecidableEq, Repr

/-- Source `database::storage::job::Job`: a job, executed at some point in time. -/
structure Job where
  identifier : Bytes
  execution : Int
  status : Status
deriving DecidableEq, Repr

/-- Source `execution::runner::Runner`: the runner configuration carried by a rule. -/
inductive Runner where
  | shell (command : Bytes)
  | amqp (dsn exchange routingKey : Bytes)
deriving DecidableEq, Repr

/-- Source `database::rule::Rule`: associates a pattern to a configured runner. -/
structure Rule where
  identifier : Bytes
  pattern : Bytes
  runner : Runner
deriving DecidableEq, Repr

/-- A `HashMap<String, Job>`, as in `ExecutionContext::jobs`. -/
abbrev JobMap := Bytes → Option Job

/-- Source `HashMap::insert` at key `k`. -/
def JobMap.set (m : JobMap) (k : Bytes) (j : Job) : JobMap :=
  fun x => if x = k then some j else m x

/-- Source `query::instruction::job::Set::handle`: register a job with the given
identifier and execution time.  On an existing Triggered job the instruction
is rejected (`Err`); otherwise the entry becomes Planned with the new
execution instant (`Ok`).  The returned `Bool` is `true` for `Ok(())` and
`false` for `Err(())`. -/
def Set.handle (identifier : Bytes) (execution : Int) (jobs : JobMap) :
    JobMap × Bool :=
  match jobs identifier with
  | some job =>
    match job.status with
    | .triggered => (jobs, false)
    | .planned => (JobMap.set jobs identifier { job with execution := execution }, true)
    | _ =>
      (JobMap.set jobs identifier
        { job with execution := execution, status := .planned }, true)
  | none =>
    (JobMap.set jobs identifier
      { identifier := identifier, execution := execution, status := .planned }, true)

/-- Source `database::rule::Rule::supports`: a rule supports a job identifier when
the identifier starts with the rule's pattern; the weight is the pattern's
byte length. -/
def Rule.supports (r : Rule) (job : Bytes) : Option Nat :=
  if r.pattern.isPrefixOf job then some r.pattern.length else none

/-- One iteration of the loop in `database::storage::Storage::pair`: the
current best `(weight, rule)` is replaced only on strictly larger weight. -/
def pairStep (job : Bytes) (best : Option (Nat × Rule)) (r : Rule) :
    Option (Nat × Rule) :=
  match r.supports job with
  | some w =>
    match best with
    | some (bw, _) => if bw < w then some (w, r) else best
    | none => some (w, r)
  | none => best

/-- Source `database::storage::Storage::pair`: pair the job with the given
identifier to a matching rule of maximal weight.  The source iterates the
values of a `HashMap<String, Rule>`; the iteration order is arbitrary, so the
rule set is modelled as a list and only order-insensitive facts are proved. -/
def pair (rules : List Rule) (job : Bytes) : Option Rule :=
  match rules.foldl (pairStep job) none with
  | some (_, r) => some r
  | none => none

theorem pairStep_sup_none (job : Bytes) (best : Option (Nat × Rule)) (r : Rule)
    (h : r.supports job = none) : pairStep job best r = best := by
  unfold pairStep
  rw [h]

theorem pairStep_none_sup_some (job : Bytes) (r : Rule) (w : Nat)
    (h : r.supports job = some w) : pairStep job none r = some (w, r) := by
  unfold pairStep
  rw [h]

theorem pairStep_some_sup_some (job : Bytes) (r : Rule) (bw : Nat) (br : Rule)
    (w : Nat) (h : r.supports job = some w) :
    pairStep job (some (bw, br)) r =
      if bw < w then some (w, r) else some (bw, br) := by
  unfold pairStep
  rw [h]

theorem pairFold_spec (job : Bytes) (rules : List Rule) :
    match rules.foldl (pairStep job) none with
    | none => ∀ r ∈ rules, r.supports job = none
    | some (w, r) =>
        r.supports job = some w ∧ r ∈ rules ∧
        ∀ r' ∈ rules, ∀ w', r'.supports job = some w' → w' ≤ w := by
  induction rules using List.reverseRecOn with
  | nil => simp
  | append_singleton rs r ih =>
    rw [List.foldl_append, List.foldl_cons, List.foldl_nil]
    rcases hprev : rs.foldl (pairStep job) none with _ | ⟨bw, br⟩
    · rw [hprev] at ih
      rcases hr : r.supports job with _ | w
      · rw [pairStep_sup_none job none r hr]
        intro r' hr1
        rcases List.mem_append.mp hr1 with h | h
        · exact ih r' h
        · rw [List.mem_singleton.mp h]
          exact hr
      · rw [pairStep_none_sup_some job r w hr]
        refine ⟨hr, by simp, ?_⟩
        intro r' hr1 w' hw'
        rcases List.mem_append.mp hr1 with h | h
        · rw [ih r' h] at hw'
          cases hw'
        · rw [List.mem_singleton.mp h] at hw'
          rw [hr] at hw'
          cases hw'
          exact le_refl _
    · rw [hprev] at ih
      obtain ⟨hbsup, hbmem, hbmax⟩ := ih
      rcases hr : r.supports job with _ | w
      · rw [pairStep_sup_none job (some (bw, br)) r hr]
        refine ⟨hbsup, List.mem_append_left _ hbmem, ?_⟩
        intro r' hr1 w' hw'
        rcases List.mem_append.mp hr1 with h | h
        · exact hbmax r' h w' hw'
        · rw [List.mem_singleton.mp h] at hw'
          rw [hr] at hw'
          cases hw'
      · rw [pairStep_some_sup_some job r bw br w hr]
        by_cases hlt : bw < w
        · rw [if_pos hlt]
          refine ⟨hr, by simp, ?_⟩
          intro r' hr1 w' hw'
          rcases List.mem_append.mp hr1 with h | h
          · have := hbmax r' h w' hw'
            omega
          · rw [List.mem_singleton.mp h] at hw'
            rw [hr] at hw'
            cases hw'
            exact le_refl _
        · rw [if_neg hlt]
          refine ⟨hbsup, List.mem_append_left _ hbmem, ?_⟩
          intro r' hr1 w' hw'
          rcases List.mem_append.mp hr1 with h | h
          · exact hbmax r' h w' hw'
          · rw [List.mem_singleton.mp h] at hw'
            rw [hr] at hw'
            cases hw'
            omega

/-- C8: a rule supports a job identifier iff the identifier begins with the
rule's pattern, with weight equal to the pattern's byte length (an empty
pattern supports every identifier with weight 0); `pair` returns `none` iff
no rule supports the identifier, and otherwise returns a member rule whose
weight is maximal among all supporting rules. -/
theorem pair_supports_maximal (rules : List Rule) (job : Bytes) :
    (∀ (r : Rule) (w : Nat),
        r.supports job = some w ↔ r.pattern.isPrefixOf job ∧ w = r.pattern.length) ∧
    (∀ (i : Bytes) (rn : Runner), Rule.supports ⟨i, [], rn⟩ job = some 0) ∧
    (pair rules job = none ↔ ∀ r ∈ rules, r.supports job = none) ∧
    (∀ r, pair rules job = some r →
        r ∈ rules ∧ ∃ w, r.supports job = some w ∧
          ∀ r' ∈ rules, ∀ w', r'.supports job = some w' → w' ≤ w) := by
  have main := pairFold_spec job rules
  refine ⟨?_, ?_, ?_, ?_⟩
  · intro r w
    unfold Rule.supports
    by_cases h : r.pattern.isPrefixOf job
    · simp [h, eq_comm]
    · simp [h]
  · intro i rn
    simp [Rule.supports, List.isPrefixOf]
  · constructor
    · intro hnone
      unfold pair at hnone
      rcases hfold : (rules.foldl (pairStep job) none) with _ | p
      · rw [hfold] at main
        exact main
      · obtain ⟨w, r⟩ := p
        rw [hfold] at hnone
        cases hnone
    · intro hall
      unfold pair
      rcases hfold : (rules.foldl (pairStep job) none) with _ | p
      · rfl
      · obtain ⟨w, r⟩ := p
        rw [hfold] at main
        obtain ⟨hsup, hmem, -⟩ := main
        rw [hall r hmem] at hsup
        cases hsup
  · intro r hr
    unfold pair at hr
    rcases hfold : (rules.foldl (pairStep job) none) with _ | p
    · rw [hfold] at hr
      cases hr
    · obtain ⟨w, rb⟩ := p
      rw [hfold] at hr
      cases hr
      rw [hfold] at main
      obtain ⟨hsup, hmem, hmax⟩ := main
      exact ⟨hmem, w, hsup, hmax⟩

/-- Concrete instantiation of `pair_supports_maximal`, discharging its
conditional branches on an explicit rule set: with rules for patterns
`"app."` and `"app.foo."`, the job `"app.foo.1"` pairs with the longer
pattern. -/
theorem pair_supports_maximal_witness :
    pair [⟨[97], [97, 112, 112, 46], .shell []⟩,
          ⟨[98], [97, 112, 112, 46, 102, 111, 111, 46], .shell []⟩]
        [97, 112, 112, 46, 102, 111, 111, 46, 49] =
      some ⟨[98], [97, 112, 112, 46, 102, 111, 111, 46], .shell []⟩ ∧
    (⟨[98], [97, 112, 112, 46, 102, 111, 111, 46], .shell []⟩ : Rule) ∈
        [⟨[97], [97, 112, 112, 46], .shell []⟩,
         ⟨[98], [97, 112, 112, 46, 102, 111, 111, 46], .shell []⟩] ∧
    ∃ w, Rule.supports ⟨[98], [97, 112, 112, 46, 102, 111, 111, 46], .shell []⟩
          [97, 112, 112, 46, 102, 111, 111, 46, 49] = some w ∧
        ∀ r' ∈ [(⟨[97], [97, 112, 112, 46], .shell []⟩ : Rule),
                ⟨[98], [97, 112, 112, 46, 102, 111, 111, 46], .shell []⟩],
          ∀ w', r'.supports [97, 112, 112, 46, 102, 111, 111, 46, 49] = some w' →
            w' ≤ w := by
  have h := (pair_supports_maximal
    [⟨[97], [97, 112, 112, 46], .shell []⟩,
     ⟨[98], [97, 112, 112, 46, 102, 111, 111, 46], .shell []⟩]
    [97, 112, 112, 46, 102, 111, 111, 46, 49]).2.2.2
    ⟨[98], [97, 112, 112, 46, 102, 111, 111, 46], .shell []⟩ (by decide)
  exact ⟨by decide, h.1, h.2⟩

/-- C1: the Job Set instruction, applied to the job map: if no job with the
identifier exists, a new Planned job with the given instant is inserted and
the instruction returns OK; if the existing job is Triggered, the
instruction returns ERROR and the state is unchanged; otherwise the entry is
overwritten to Planned with the new execution instant and the instruction
returns OK. -/
theorem jobSet_spec (id : Bytes) (t : Int) (m : JobMap) :
    (m id = none →
      Set.handle id t m = (JobMap.set m id ⟨id, t, .planned⟩, true)) ∧
    (∀ j, m id = some j → j.status = .triggered →
      Set.handle id t m = (m, false)) ∧
    (∀ j, m id = some j → j.status ≠ .triggered →
      Set.handle id t m =
        (JobMap.set m id { j with execution := t, status := .planned }, true)) := by
  refine ⟨?_, ?_, ?_⟩
  · intro h
    simp [Set.handle, h]
  · intro j hj hst
    simp [Set.handle, hj, hst]
  · intro j hj hst
    obtain ⟨ji, jt, js⟩ := j
    cases js with
    | planned => simp [Set.handle, hj]
    | triggered => exact absurd rfl hst
    | executed => simp [Set.handle, hj]
    | failed => simp [Set.handle, hj]

/-- Concrete instantiation of `jobSet_spec`: inserting into an empty map, and
rejecting a Set on a Triggered job. -/
theorem jobSet_spec_witness :
    Set.handle [97] 5 (fun _ => none) =
      (JobMap.set (fun _ => none) [97] ⟨[97], 5, .planned⟩, true) ∧
    Set.handle [97] 7 (JobMap.set (fun _ => none) [97] ⟨[97], 5, .triggered⟩) =
      (JobMap.set (fun _ => none) [97] ⟨[97], 5, .triggered⟩, false) := by
  constructor
  · exact (jobSet_spec [97] 5 (fun _ => none)).1 rfl
  · exact (jobSet_spec [97] 7 (JobMap.set (fun _ => none) [97] ⟨[97], 5, .triggered⟩)).2.1
      ⟨[97], 5, .triggered⟩ (by simp [JobMap.set]) rfl

/-- Source `database::storage::job::Storage`: jobs keyed by identifier, together
with the `to_execute` ordered vector of Planned jobs. -/
structure JobStorage where
  jobs : JobMap
  toExecute : List Job

/-- Source `database::storage::job::Storage::new`. -/
def JobStorage.empty : JobStorage :=
  ⟨fun _ => none, []⟩

/-- Insertion into the ordered vector: the source computes
`iter().position(|e| e.get_execution() > job.get_execution())` and inserts
the job there, pushing it to the end when no such position exists.  That is,
the job is placed just before the first element with a strictly greater
execution instant. -/
def insertToExecute (j : Job) : List Job → List Job
  | [] => [j]
  | e :: es =>
    if j.execution < e.execution then j :: e :: es else e :: insertToExecute j es

/-- Source `database::storage::job::Storage::set`: replace the entry in the map; if
the previous entry was Planned, drop it from the ordered vector (by
identifier); if the new job is Planned, insert it into the ordered vector. -/
def JobStorage.set (st : JobStorage) (j : Job) : JobStorage :=
  let te :=
    match st.jobs j.identifier with
    | some old =>
      if old.status = .planned then
        st.toExecute.filter (fun e => e.identifier ≠ old.identifier)
      else st.toExecute
    | none => st.toExecute
  { jobs := JobMap.set st.jobs j.identifier j
    toExecute := if j.status = .planned then insertToExecute j te else te }

/-- Rust `Iterator::position`: index of the first element satisfying `p`. -/
def position (p : Job → Bool) : List Job → Option Nat
  | [] => none
  | e :: es => if p e then some 0 else (position p es).map (· + 1)

/-- Source `database::storage::job::Storage::get_to_execute`: all entries of the
ordered vector before the first one with an execution instant beyond the
current time (the whole vector when there is none). -/
def JobStorage.getToExecute (st : JobStorage) (now : Int) : List Job :=
  match position (fun e => now < e.execution) st.toExecute with
  | some p => st.toExecute.take p
  | none => st.toExecute

theorem insertToExecute_perm (j : Job) (l : List Job) :
    (insertToExecute j l).Perm (j :: l) := by
  induction l with
  | nil => exact List.Perm.refl _
  | cons e es ih =>
    unfold insertToExecute
    by_cases h : j.execution < e.execution
    · rw [if_pos h]
    · rw [if_neg h]
      exact (ih.cons e).trans (List.Perm.swap j e es)

theorem insertToExecute_mem (x j : Job) (l : List Job) :
    x ∈ insertToExecute j l ↔ x = j ∨ x ∈ l := by
  rw [(insertToExecute_perm j l).mem_iff, List.mem_cons]

theorem insertToExecute_sorted {j : Job} {l : List Job}
    (h : l.Pairwise (fun a b => a.execution ≤ b.execution)) :
    (insertToExecute j l).Pairwise (fun a b => a.execution ≤ b.execution) := by
  induction l with
  | nil => simp [insertToExecute]
  | cons e es ih =>
    rw [List.pairwise_cons] at h
    obtain ⟨he, hes⟩ := h
    unfold insertToExecute
    by_cases hlt : j.execution < e.execution
    · rw [if_pos hlt]
      refine List.Pairwise.cons ?_ (List.Pairwise.cons he hes)
      intro x hx
      rcases List.mem_cons.mp hx with hx | hx
      · rw [hx]
        exact le_of_lt hlt
      · exact le_trans (le_of_lt hlt) (he x hx)
    · rw [if_neg hlt]
      refine List.Pairwise.cons ?_ (ih hes)
      intro x hx
      rcases (insertToExecute_mem x j es).mp hx with hx | hx
      · rw [hx]
        exact le_of_not_lt hlt
      · exact he x hx

/-- The invariant tying the ordered vector to the job map: `to_execute`
holds exactly the Planned jobs, keyed consistently, each identifier at most
once, in non-decreasing execution-instant order. -/
structure JobStorageInv (st : JobStorage) : Prop where
  keyed : ∀ id j, st.jobs id = some j → j.identifier = id
  mem_jobs : ∀ e ∈ st.toExecute, st.jobs e.identifier = some e
  planned_mem : ∀ id j, st.jobs id = some j → j.status = .planned → j ∈ st.toExecute
  planned_status : ∀ e ∈ st.toExecute, e.status = .planned
  nodup_ids : (st.toExecute.map Job.identifier).Nodup
  sorted : st.toExecute.Pairwise (fun a b => a.execution ≤ b.execution)

theorem jobStorageInv_empty : JobStorageInv JobStorage.empty := by
  constructor <;> simp [JobStorage.empty]

theorem jobStorageInv_set_aux (st : JobStorage) (j : Job) (te : List Job)
    (hinv : JobStorageInv st)
    (h1 : ∀ e ∈ te, e ∈ st.toExecute)
    (h2 : ∀ e ∈ te, e.identifier ≠ j.identifier)
    (h3 : ∀ e ∈ st.toExecute, e.identifier ≠ j.identifier → e ∈ te)
    (h4 : (te.map Job.identifier).Nodup)
    (h5 : te.Pairwise (fun a b => a.execution ≤ b.execution)) :
    JobStorageInv
      ⟨JobMap.set st.jobs j.identifier j,
       if j.status = .planned then insertToExecute j te else te⟩ := by
  obtain ⟨keyed, mem_jobs, planned_mem, planned_status, nodup_ids, sorted⟩ := hinv
  have hte2_mem : ∀ e, e ∈ (if j.status = .planned then insertToExecute j te else te) →
      (e = j ∧ j.status = .planned) ∨ e ∈ te := by
    intro e he
    by_cases hp : j.status = .planned
    · rw [if_pos hp] at he
      rcases (insertToExecute_mem e j te).mp he with h | h
      · exact Or.inl ⟨h, hp⟩
      · exact Or.inr h
    · rw [if_neg hp] at he
      exact Or.inr he
  constructor
  · -- keyed
    intro id j' h
    dsimp only [JobMap.set] at h
    by_cases hid : id = j.identifier
    · rw [if_pos hid] at h
      cases h
      exact hid.symm
    · rw [if_neg hid] at h
      exact keyed id j' h
  · -- mem_jobs
    intro e he
    rcases hte2_mem e he with ⟨rfl, -⟩ | hmem
    · simp [JobMap.set]
    · have hne := h2 e hmem
      have := mem_jobs e (h1 e hmem)
      simp only [JobMap.set, if_neg hne]
      exact this
  · -- planned_mem
    intro id j' hj' hstatus
    simp only [JobMap.set] at hj'
    by_cases hid : id = j.identifier
    · rw [if_pos hid] at hj'
      cases hj'
      rw [if_pos hstatus]
      exact (insertToExecute_mem _ _ te).mpr (Or.inl rfl)
    · rw [if_neg hid] at hj'
      have hmem := planned_mem id j' hj' hstatus
      have hne : j'.identifier ≠ j.identifier := by
        rw [keyed id j' hj']
        exact hid
      have hte := h3 j' hmem hne
      by_cases hp : j.status = .planned
      · rw [if_pos hp]
        exact (insertToExecute_mem j' j te).mpr (Or.inr hte)
      · rw [if_neg hp]
        exact hte
  · -- planned_status
    intro e he
    rcases hte2_mem e he with ⟨rfl, hp⟩ | hmem
    · exact hp
    · exact planned_status e (h1 e hmem)
  · -- nodup_ids
    by_cases hp : j.status = .planned
    · rw [if_pos hp]
      have hperm : ((insertToExecute j te).map Job.identifier).Perm
          (j.identifier :: te.map Job.identifier) := by
        simpa using (insertToExecute_perm j te).map Job.identifier
      rw [hperm.nodup_iff, List.nodup_cons]
      refine ⟨?_, h4⟩
      intro hmem
      obtain ⟨e, he, heq⟩ := List.mem_map.mp hmem
      exact h2 e he heq
    · rw [if_neg hp]
      exact h4
  · -- sorted
    by_cases hp : j.status = .planned
    · rw [if_pos hp]
      exact insertToExecute_sorted h5
    · rw [if_neg hp]
      exact h5

theorem jobStorageInv_set {st : JobStorage} (hinv : JobStorageInv st) (j : Job) :
    JobStorageInv (st.set j) := by
  have keyed := hinv.keyed
  have mem_jobs := hinv.mem_jobs
  have planned_status := hinv.planned_status
  unfold JobStorage.set
  rcases hold : st.jobs j.identifier with _ | old
  · -- no previous entry: the vector is untouched before insertion
    refine jobStorageInv_set_aux st j st.toExecute hinv (fun e he => he) ?_
      (fun e he _ => he) hinv.nodup_ids hinv.sorted
    intro e he heq
    have := mem_jobs e he
    rw [heq, hold] at this
    cases this
  · have hoid : old.identifier = j.identifier := keyed _ old hold
    dsimp only
    by_cases hps : old.status = .planned
    · rw [if_pos hps]
      refine jobStorageInv_set_aux st j
        (st.toExecute.filter (fun e => e.identifier ≠ old.identifier)) hinv ?_ ?_ ?_ ?_ ?_
      · intro e he
        exact (List.mem_filter.mp he).1
      · intro e he
        have := (List.mem_filter.mp he).2
        rw [hoid] at this
        simpa using this
      · intro e he hne
        refine List.mem_filter.mpr ⟨he, ?_⟩
        rw [hoid]
        simpa using hne
      · exact hinv.nodup_ids.sublist ((List.filter_sublist _).map Job.identifier)
      · exact hinv.sorted.sublist (List.filter_sublist _)
    · rw [if_neg hps]
      refine jobStorageInv_set_aux st j st.toExecute hinv (fun e he => he) ?_
        (fun e he _ => he) hinv.nodup_ids hinv.sorted
      intro e he heq
      have hme := mem_jobs e he
      rw [heq, hold] at hme
      cases hme
      exact hps (planned_status _ he)

theorem jobStorageInv_foldl (ops : List Job) :
    JobStorageInv (ops.foldl JobStorage.set JobStorage.empty) := by
  suffices h : ∀ st, JobStorageInv st → JobStorageInv (ops.foldl JobStorage.set st) from
    h JobStorage.empty jobStorageInv_empty
  induction ops with
  | nil => exact fun st h => h
  | cons o os ih =>
    intro st h
    exact ih (st.set o) (jobStorageInv_set h o)

/-- Byte-wise lexicographic comparison of identifiers ("ascending identifier
order"). -/
def bytesLe : Bytes → Bytes → Bool
  | [], _ => true
  | _ :: _, [] => false
  | a :: as, b :: bs =>
    if a < b then true else if a = b then bytesLe as bs else false

/-- The ordering asserted by claim C6: ascending by execution instant, ties
broken by ascending identifier. -/
def orderedByInstantThenId (l : List Job) : Prop :=
  l.Pairwise (fun a b =>
    a.execution < b.execution ∨
    (a.execution = b.execution ∧ bytesLe a.identifier b.identifier = true))

/-- C6 counterexample: setting two Planned jobs with equal execution
instants in descending identifier order leaves `to_execute` in insertion
order (`[0x62]` before `[0x61]`), not ascending identifier order, refuting
the claimed `(execution_instant, identifier)` ordering. -/
theorem toExecute_identifier_order_cex :
    ¬ orderedByInstantThenId
        (([⟨[98], 0, .planned⟩, ⟨[97], 0, .planned⟩] : List Job).foldl
          JobStorage.set JobStorage.empty).toExecute := by
  intro h
  have hte : (([⟨[98], 0, .planned⟩, ⟨[97], 0, .planned⟩] : List Job).foldl
      JobStorage.set JobStorage.empty).toExecute =
      [⟨[98], 0, .planned⟩, ⟨[97], 0, .planned⟩] := rfl
  rw [hte] at h
  rcases List.pairwise_cons.mp h with ⟨hrel, -⟩
  have := hrel ⟨[97], 0, .planned⟩ (by simp)
  rcases this with h1 | ⟨-, h2⟩
  · exact absurd h1 (by decide)
  · exact absurd h2 (by decide)

/-- C6 (amended): after any sequence of `set` operations starting from the
empty storage (initialization populates the storage this way as well), the
`to_execute` index holds exactly the jobs whose status is Planned, each
identifier at most once, in non-decreasing execution-instant order — equal
instants appear in insertion order, not necessarily ascending identifier
order. -/
theorem toExecute_index_invariant (ops : List Job) :
    JobStorageInv (ops.foldl JobStorage.set JobStorage.empty) :=
  jobStorageInv_foldl ops

theorem getToExecute_eq_takeWhile (st : JobStorage) (now : Int) :
    st.getToExecute now = st.toExecute.takeWhile (fun e => e.execution ≤ now) := by
  unfold JobStorage.getToExecute
  generalize st.toExecute = l
  induction l with
  | nil => rfl
  | cons e es ih =>
    unfold position
    by_cases h : now < e.execution
    · have hn : ¬ (decide (e.execution ≤ now) = true) := by
        simp only [decide_eq_true_eq]
        omega
      rw [if_pos (decide_eq_true h)]
      simp only [List.take_zero, List.takeWhile_cons]
      rw [if_neg hn]
    · have hp : decide (e.execution ≤ now) = true := by
        simp only [decide_eq_true_eq]
        omega
      have hd : ¬ (decide (now < e.execution) = true) := by
        simp only [decide_eq_true_eq]
        omega
      rw [if_neg hd]
      simp only [List.takeWhile_cons]
      rw [if_pos hp]
      rcases hfi : position (fun e => now < e.execution) es with _ | k
      · rw [hfi] at ih
        exact congrArg (List.cons e) ih
      · rw [hfi] at ih
        exact congrArg (List.cons e) ih

theorem mem_takeWhile_sorted {l : List Job} {now : Int}
    (hs : l.Pairwise (fun a b => a.execution ≤ b.execution)) (x : Job) :
    x ∈ l.takeWhile (fun e => e.execution ≤ now) ↔ x ∈ l ∧ x.execution ≤ now := by
  induction l with
  | nil => simp
  | cons e es ih =>
    rw [List.pairwise_cons] at hs
    obtain ⟨he, hes⟩ := hs
    rw [List.takeWhile_cons]
    by_cases hp : e.execution ≤ now
    · rw [if_pos (decide_eq_true hp)]
      simp only [List.mem_cons]
      constructor
      · intro hx
        rcases hx with hx | hx
        · exact ⟨Or.inl hx, hx ▸ hp⟩
        · obtain ⟨h1, h2⟩ := (ih hes).mp hx
          exact ⟨Or.inr h1, h2⟩
      · rintro ⟨hx | hx, hxe⟩
        · exact Or.inl hx
        · exact Or.inr ((ih hes).mpr ⟨hx, hxe⟩)
    · have hd : ¬ (decide (e.execution ≤ now) = true) := by
        simp only [decide_eq_true_eq]
        omega
      rw [if_neg hd]
      constructor
      · intro hx
        cases hx
      · rintro ⟨hx, hxe⟩
        rcases List.mem_cons.mp hx with rfl | hx
        · exact absurd hxe hp
        · exact absurd (le_trans (he x hx) hxe) hp

/-- Source `database::Database::trigger_execution`, with every `set_job` persist
succeeding: jobs are partitioned by whether `pair` finds a rule; each paired
job is rewritten as Triggered and an execution request
`(identifier, runner)` is emitted; each unpaired job is rewritten as Failed
with no request. -/
def triggerExecution (rules : List Rule) (st : JobStorage) (jobs : List Job) :
    JobStorage × List (Bytes × Runner) :=
  let triggering := jobs.filter (fun j => (pair rules j.identifier).isSome)
  let failing := jobs.filter (fun j => !(pair rules j.identifier).isSome)
  let st1 := triggering.foldl (fun s j => s.set ⟨j.identifier, j.execution, .triggered⟩) st
  let requests := triggering.filterMap
    (fun j => (pair rules j.identifier).map (fun r => (j.identifier, r.runner)))
  let st2 := failing.foldl (fun s j => s.set ⟨j.identifier, j.execution, .failed⟩) st1
  (st2, requests)

theorem foldl_set_lookup_untouched (g : Job → Job)
    (hg : ∀ j, (g j).identifier = j.identifier)
    (js : List Job) : ∀ (st : JobStorage) (id : Bytes),
    (∀ j ∈ js, j.identifier ≠ id) →
    (js.foldl (fun s j => s.set (g j)) st).jobs id = st.jobs id := by
  induction js with
  | nil => intro st id _; rfl
  | cons a rest ih =>
    intro st id hnot
    rw [List.foldl_cons]
    rw [ih _ id (fun j hj => hnot j (List.mem_cons_of_mem a hj))]
    show JobMap.set st.jobs (g a).identifier (g a) id = st.jobs id
    unfold JobMap.set
    rw [if_neg]
    rw [hg a]
    exact fun h => hnot a (List.mem_cons_self a rest) h.symm

theorem foldl_set_lookup_mem (g : Job → Job)
    (hg : ∀ j, (g j).identifier = j.identifier)
    (js : List Job) : ∀ (st : JobStorage) (j : Job), j ∈ js →
    (js.map Job.identifier).Nodup →
    (js.foldl (fun s j => s.set (g j)) st).jobs j.identifier = some (g j) := by
  induction js with
  | nil =>
    intro st j h
    cases h
  | cons a rest ih =>
    intro st j hmem hnd
    rw [List.map_cons, List.nodup_cons] at hnd
    obtain ⟨hna, hndr⟩ := hnd
    rw [List.foldl_cons]
    rcases List.mem_cons.mp hmem with rfl | hmem2
    · rw [foldl_set_lookup_untouched g hg rest _ j.identifier ?_]
      · show JobMap.set st.jobs (g j).identifier (g j) j.identifier = some (g j)
        unfold JobMap.set
        rw [hg j, if_pos rfl]
      · intro j' hj' heq
        exact hna (heq ▸ List.mem_map_of_mem Job.identifier hj')
    · exact ih _ j hmem2 hndr

/-- C7: on a tick, exactly the Planned jobs with execution instant ≤ the
current instant (inclusive) are selected, in ascending execution-instant
order; assuming persists succeed, each selected job pairing with a rule
becomes Triggered and gets an execution request, and each selected job with
no supporting rule becomes Failed with no request emitted. -/
theorem tick_selection_and_trigger (st : JobStorage) (rules : List Rule) (now : Int)
    (hinv : JobStorageInv st) :
    (∀ e, e ∈ st.getToExecute now ↔
        (st.jobs e.identifier = some e ∧ e.status = .planned ∧ e.execution ≤ now)) ∧
    (st.getToExecute now).Pairwise (fun a b => a.execution ≤ b.execution) ∧
    (∀ e ∈ st.getToExecute now,
      (∀ r, pair rules e.identifier = some r →
        (triggerExecution rules st (st.getToExecute now)).1.jobs e.identifier =
            some ⟨e.identifier, e.execution, .triggered⟩ ∧
        (e.identifier, r.runner) ∈ (triggerExecution rules st (st.getToExecute now)).2) ∧
      (pair rules e.identifier = none →
        (triggerExecution rules st (st.getToExecute now)).1.jobs e.identifier =
            some ⟨e.identifier, e.execution, .failed⟩ ∧
        e.identifier ∉ (triggerExecution rules st (st.getToExecute now)).2.map Prod.fst)) := by
  have hsel := getToExecute_eq_takeWhile st now
  have hsorted : (st.getToExecute now).Pairwise (fun a b => a.execution ≤ b.execution) := by
    rw [hsel]
    exact hinv.sorted.sublist (List.takeWhile_sublist _)
  have hnd : ((st.getToExecute now).map Job.identifier).Nodup := by
    rw [hsel]
    exact hinv.nodup_ids.sublist ((List.takeWhile_sublist _).map _)
  have hmem_iff : ∀ e, e ∈ st.getToExecute now ↔
      (st.jobs e.identifier = some e ∧ e.status = .planned ∧ e.execution ≤ now) := by
    intro e
    rw [hsel, mem_takeWhile_sorted hinv.sorted]
    constructor
    · rintro ⟨h1, h2⟩
      exact ⟨hinv.mem_jobs e h1, hinv.planned_status e h1, h2⟩
    · rintro ⟨h1, h2, h3⟩
      exact ⟨hinv.planned_mem e.identifier e h1 h2, h3⟩
  refine ⟨hmem_iff, hsorted, ?_⟩
  have hinj := List.inj_on_of_nodup_map hnd
  intro e he
  have hfst : (triggerExecution rules st (st.getToExecute now)).1 =
      ((st.getToExecute now).filter (fun j => !(pair rules j.identifier).isSome)).foldl
        (fun s j => s.set ⟨j.identifier, j.execution, .failed⟩)
        (((st.getToExecute now).filter (fun j => (pair rules j.identifier).isSome)).foldl
          (fun s j => s.set ⟨j.identifier, j.execution, .triggered⟩) st) := rfl
  have hsnd : (triggerExecution rules st (st.getToExecute now)).2 =
      ((st.getToExecute now).filter (fun j => (pair rules j.identifier).isSome)).filterMap
        (fun j => (pair rules j.identifier).map (fun r => (j.identifier, r.runner))) := rfl
  have hndt : (((st.getToExecute now).filter
      (fun j => (pair rules j.identifier).isSome)).map Job.identifier).Nodup :=
    hnd.sublist ((List.filter_sublist _).map _)
  have hndf : (((st.getToExecute now).filter
      (fun j => !(pair rules j.identifier).isSome)).map Job.identifier).Nodup :=
    hnd.sublist ((List.filter_sublist _).map _)
  constructor
  · intro r hr
    have hetrig : e ∈ (st.getToExecute now).filter
        (fun j => (pair rules j.identifier).isSome) := by
      refine List.mem_filter.mpr ⟨he, ?_⟩
      rw [hr]
      rfl
    have hfail_not : ∀ j ∈ (st.getToExecute now).filter
        (fun j => !(pair rules j.identifier).isSome), j.identifier ≠ e.identifier := by
      intro j hj heq
      obtain ⟨hjsel, hpred⟩ := List.mem_filter.mp hj
      have hje := hinj hjsel he heq
      rw [hje, hr] at hpred
      cases hpred
    constructor
    · rw [hfst]
      rw [foldl_set_lookup_untouched (fun j => ⟨j.identifier, j.execution, .failed⟩)
        (fun _ => rfl) _ _ e.identifier hfail_not]
      exact foldl_set_lookup_mem (fun j => ⟨j.identifier, j.execution, .triggered⟩)
        (fun _ => rfl) _ st e hetrig hndt
    · rw [hsnd]
      refine List.mem_filterMap.mpr ⟨e, hetrig, ?_⟩
      rw [hr]
      rfl
  · intro hr
    have hefail : e ∈ (st.getToExecute now).filter
        (fun j => !(pair rules j.identifier).isSome) := by
      refine List.mem_filter.mpr ⟨he, ?_⟩
      rw [hr]
      rfl
    constructor
    · rw [hfst]
      exact foldl_set_lookup_mem (fun j => ⟨j.identifier, j.execution, .failed⟩)
        (fun _ => rfl) _ _ e hefail hndf
    · rw [hsnd]
      intro hmem
      obtain ⟨x, hx, hxfst⟩ := List.mem_map.mp hmem
      obtain ⟨j, hjt, hjeq⟩ := List.mem_filterMap.mp hx
      rcases hpj : pair rules j.identifier with _ | rj
      · rw [hpj] at hjeq
        cases hjeq
      · rw [hpj] at hjeq
        cases hjeq
        have hjsel := (List.mem_filter.mp hjt).1
        have hje := hinj hjsel he hxfst
        rw [hje] at hpj
        rw [hpj] at hr
        cases hr

/-- C7 witness: `tick_selection_and_trigger` instantiated on a concrete
storage (one Planned job, one catch-all rule), hypotheses discharged. -/
theorem tick_selection_and_trigger_witness :
    (triggerExecution [⟨[114], [], .shell [99]⟩]
        (([⟨[97], 0, .planned⟩] : List Job).foldl JobStorage.set JobStorage.empty)
        ((([⟨[97], 0, .planned⟩] : List Job).foldl JobStorage.set
            JobStorage.empty).getToExecute 5)).1.jobs [97] =
      some ⟨[97], 0, .triggered⟩ ∧
    ([97], Runner.shell [99]) ∈
      (triggerExecution [⟨[114], [], .shell [99]⟩]
        (([⟨[97], 0, .planned⟩] : List Job).foldl JobStorage.set JobStorage.empty)
        ((([⟨[97], 0, .planned⟩] : List Job).foldl JobStorage.set
            JobStorage.empty).getToExecute 5)).2 := by
  have h := ((tick_selection_and_trigger
      (([⟨[97], 0, .planned⟩] : List Job).foldl JobStorage.set JobStorage.empty)
      [⟨[114], [], .shell [99]⟩] 5 (jobStorageInv_foldl _)).2.2
      ⟨[97], 0, .planned⟩ (by decide)).1 ⟨[114], [], .shell [99]⟩ (by decide)
  exact h

/-! ## The persistence encoder (`database::storage::persistence::encoder`)

The persistence layer's `Job`, `Rule` and `Runner` types mirror the storage
types field for field (the `From` conversions in `storage/mod.rs` are
field-identity), so the storage types are reused here. -/

/-- Source `persistence::Entry`: a WAL entry. -/
inductive Entry where
  | job (j : Job)
  | rule (r : Rule)
deriving DecidableEq, Repr

/-- The status byte of `Encoder::encode_job` (and its inverse in `decode`):
0 = planned, 1 = triggered, 2 = executed, 3 = failed. -/
def statusByte : Status → Nat
  | .planned => 0
  | .triggered => 1
  | .executed => 2
  | .failed => 3

/-- Source `u16::to_be_bytes`. -/
def be16 (n : Nat) : Bytes :=
  [n / 256 % 256, n % 256]

/-- Source `i64::to_be_bytes` (two's complement, big-endian). -/
def be64 (t : Int) : Bytes :=
  let n := (t % 18446744073709551616).toNat
  [n / 72057594037927936 % 256,
   n / 281474976710656 % 256,
   n / 1099511627776 % 256,
   n / 4294967296 % 256,
   n / 16777216 % 256,
   n / 65536 % 256,
   n / 256 % 256,
   n % 256]

/-- Source `Encoder::encode_job`: type byte 0, sized identifier, the execution
instant as big-endian `i64` nanoseconds (`timestamp_nanos`), the status
byte.  Fails when the identifier exceeds `u16::MAX` bytes. -/
def encodeJob (j : Job) : Option Bytes :=
  if j.identifier.length > 65535 then none
  else some ([0] ++ be16 j.identifier.length ++ j.identifier ++ be64 j.execution
    ++ [statusByte j.status])

/-- The runner part of `Encoder::encode_rule`: type byte 0 (shell) or 1
(amqp) followed by the sized configuration strings.  Fails when any string
exceeds `u16::MAX` bytes. -/
def encodeRunner : Runner → Option Bytes
  | .shell command =>
    if command.length > 65535 then none
    else some ([0] ++ be16 command.length ++ command)
  | .amqp dsn exchange routingKey =>
    if dsn.length > 65535 then none
    else if exchange.length > 65535 then none
    else if routingKey.length > 65535 then none
    else some ([1] ++ be16 dsn.length ++ dsn ++ be16 exchange.length ++ exchange
      ++ be16 routingKey.length ++ routingKey)

/-- Source `Encoder::encode_rule`: type byte 1, sized identifier, sized pattern,
then the encoded runner. -/
def encodeRule (r : Rule) : Option Bytes :=
  if r.identifier.length > 65535 then none
  else if r.pattern.length > 65535 then none
  else
    match encodeRunner r.runner with
    | none => none
    | some er => some ([1] ++ be16 r.identifier.length ++ r.identifier
        ++ be16 r.pattern.length ++ r.pattern ++ er)

/-- Source `Encoder::encode`. -/
def encode : Entry → Option Bytes
  | .job j => encodeJob j
  | .rule r => encodeRule r

/-- Source `nom::number::complete::be_u16`. -/
def parseBe16 : Bytes → Option (Nat × Bytes)
  | b0 :: b1 :: rest => some (b0 * 256 + b1, rest)
  | _ => none

/-- Source `nom::bytes::complete::take(n)`. -/
def parseTake (n : Nat) (input : Bytes) : Option (Bytes × Bytes) :=
  if n ≤ input.length then some (input.take n, input.drop n) else none

/-- Source `sized_utf8_string`: a big-endian `u16` length followed by that many
bytes.  (The `String::from_utf8` validation cannot fail here: every modelled
string is the byte sequence of a Rust `String`, hence valid UTF-8.) -/
def parseSizedString (input : Bytes) : Option (Bytes × Bytes) :=
  match parseBe16 input with
  | none => none
  | some (n, rest) => parseTake n rest

/-- Source `nom::number::complete::be_i64`. -/
def parseBe64 : Bytes → Option (Int × Bytes)
  | b0 :: b1 :: b2 :: b3 :: b4 :: b5 :: b6 :: b7 :: rest =>
    let n := b0 * 72057594037927936 + b1 * 281474976710656 + b2 * 1099511627776 +
      b3 * 4294967296 + b4 * 16777216 + b5 * 65536 + b6 * 256 + b7
    some (if n < 9223372036854775808 then (n : Int)
      else (n : Int) - 18446744073709551616, rest)
  | _ => none

/-- Source `chrono`'s `Utc.timestamp(secs, nsecs)`: panics (`LocalResult` unwrap)
unless `nsecs ≤ 1_999_999_999`; a successful result denotes the instant
whose `timestamp_nanos` is `secs * 10^9 + nsecs`. -/
def chronoTimestamp (secs : Int) (nsecs : Nat) : Option Int :=
  if nsecs < 2000000000 then some (secs * 1000000000 + nsecs) else none

/-- The timestamp reconstruction of `Encoder::decode`:
`Utc.timestamp(t / 1_000_000_000, (t % 1_000_000_000) as u32)`, with Rust's
truncating `/` and `%` on `i64` and the wrapping `as u32` cast; the panic on
an out-of-range nanosecond value is modelled as a failed decode. -/
def decodeTimestamp (t : Int) : Option Int :=
  chronoTimestamp (t.tdiv 1000000000) ((t.tmod 1000000000) % 4294967296).toNat

/-- The status-byte parser of `Encoder::decode`. -/
def parseStatus : Bytes → Option (Status × Bytes)
  | 0 :: rest => some (.planned, rest)
  | 1 :: rest => some (.triggered, rest)
  | 2 :: rest => some (.executed, rest)
  | 3 :: rest => some (.failed, rest)
  | _ => none

/-- The job alternative of `Encoder::decode`: type byte 0, sized identifier,
`i64` timestamp, status byte. -/
def parseJobEntry (input : Bytes) : Option (Entry × Bytes) :=
  match input with
  | 0 :: rest =>
    match parseSizedString rest with
    | none => none
    | some (id, rest) =>
      match parseBe64 rest with
      | none => none
      | some (t, rest) =>
        match decodeTimestamp t with
        | none => none
        | some instant =>
          match parseStatus rest with
          | none => none
          | some (st, rest) => some (.job ⟨id, instant, st⟩, rest)
  | _ => none

/-- The runner parser of `Encoder::decode`: type byte 0 (shell command) or 1
(amqp dsn, exchange, routing key). -/
def parseRunner (input : Bytes) : Option (Runner × Bytes) :=
  match input with
  | 0 :: rest =>
    match parseSizedString rest with
    | none => none
    | some (cmd, rest) => some (.shell cmd, rest)
  | 1 :: rest =>
    match parseSizedString rest with
    | none => none
    | some (dsn, rest) =>
      match parseSizedString rest with
      | none => none
      | some (exchange, rest) =>
        match parseSizedString rest with
        | none => none
        | some (rk, rest) => some (.amqp dsn exchange rk, rest)
  | _ => none

/-- The rule alternative of `Encoder::decode`: type byte 1, sized
identifier, sized pattern, runner. -/
def parseRuleEntry (input : Bytes) : Option (Entry × Bytes) :=
  match input with
  | 1 :: rest =>
    match parseSizedString rest with
    | none => none
    | some (id, rest) =>
      match parseSizedString rest with
      | none => none
      | some (pat, rest) =>
        match parseRunner rest with
        | none => none
        | some (rn, rest) => some (.rule ⟨id, pat, rn⟩, rest)
  | _ => none

/-- Source `Encoder::decode`: `all_consuming(alt((job, rule)))`.  The job
alternative only matches inputs starting with byte 0 and the rule
alternative only those starting with byte 1, so alternation order and nom's
`Error`/`Failure` distinction do not change the result. -/
def decode (input : Bytes) : Option Entry :=
  match parseJobEntry input with
  | some (e, rest) => if rest = [] then some e else none
  | none =>
    match parseRuleEntry input with
    | some (e, rest) => if rest = [] then some e else none
    | none => none

theorem parseBe16_be16 (n : Nat) (rest : Bytes) (h : n ≤ 65535) :
    parseBe16 (be16 n ++ rest) = some (n, rest) := by
  have hv : n / 256 % 256 * 256 + n % 256 = n := by omega
  simp [be16, parseBe16, hv]

theorem parseTake_exact (s rest : Bytes) :
    parseTake s.length (s ++ rest) = some (s, rest) := by
  unfold parseTake
  rw [if_pos]
  · rw [List.take_left, List.drop_left]
  · simp

theorem parseSizedString_enc (s rest : Bytes) (h : s.length ≤ 65535) :
    parseSizedString (be16 s.length ++ (s ++ rest)) = some (s, rest) := by
  unfold parseSizedString
  rw [← List.append_assoc, List.append_assoc (be16 s.length) s rest]
  rw [parseBe16_be16 _ _ h]
  exact parseTake_exact s rest

theorem parseBe64_be64 (t : Int) (rest : Bytes)
    (h1 : -9223372036854775808 ≤ t) (h2 : t < 9223372036854775808) :
    parseBe64 (be64 t ++ rest) = some (t, rest) := by
  have hN0 : (0 : Int) ≤ t % 18446744073709551616 :=
    Int.emod_nonneg t (by norm_num)
  have hNlt : t % 18446744073709551616 < 18446744073709551616 :=
    Int.emod_lt_of_pos t (by norm_num)
  set n : Nat := (t % 18446744073709551616).toNat with hn
  have hnN : (n : Int) = t % 18446744073709551616 := Int.toNat_of_nonneg hN0
  have hnlt : n < 18446744073709551616 := by omega
  have hrec : n / 72057594037927936 % 256 * 72057594037927936 +
      n / 281474976710656 % 256 * 281474976710656 +
      n / 1099511627776 % 256 * 1099511627776 +
      n / 4294967296 % 256 * 4294967296 +
      n / 16777216 % 256 * 16777216 +
      n / 65536 % 256 * 65536 +
      n / 256 % 256 * 256 +
      n % 256 = n := by omega
  have hNt : (n : Int) = t ∨ (n : Int) = t + 18446744073709551616 := by
    by_cases ht : 0 ≤ t
    · left
      rw [hnN, Int.emod_eq_of_lt ht (by omega)]
    · right
      have h3 := Int.add_mul_emod_self_left (a := t) (b := 18446744073709551616) (c := 1)
      rw [mul_one] at h3
      rw [hnN, ← h3, Int.emod_eq_of_lt (by omega) (by omega)]
  unfold be64 parseBe64
  simp only [List.cons_append, List.nil_append]
  rw [hrec]
  rcases hNt with hcase | hcase
  · have hpos : n < 9223372036854775808 := by omega
    rw [if_pos hpos]
    rw [hcase]
  · have hneg : ¬ (n < 9223372036854775808) := by omega
    rw [if_neg hneg]
    rw [hcase]
    congr 1
    congr 1
    omega

theorem decodeTimestamp_nonneg_tmod (t : Int) (h : 0 ≤ t.tmod 1000000000) :
    decodeTimestamp t = some t := by
  have h1 : t.tmod 1000000000 < 1000000000 := Int.tmod_lt_of_pos t (by norm_num)
  have h2 : (t.tmod 1000000000) % 4294967296 = t.tmod 1000000000 :=
    Int.emod_eq_of_lt h (by omega)
  unfold decodeTimestamp chronoTimestamp
  rw [h2]
  rw [if_pos (by omega)]
  congr 1
  have h3 : ((t.tmod 1000000000).toNat : Int) = t.tmod 1000000000 :=
    Int.toNat_of_nonneg h
  rw [h3]
  have := Int.tdiv_add_tmod t 1000000000
  omega

theorem parseStatus_statusByte (s : Status) (rest : Bytes) :
    parseStatus (statusByte s :: rest) = some (s, rest) := by
  cases s <;> rfl

theorem decode_encodeJob (j : Job) (h : j.identifier.length ≤ 65535)
    (h1 : -9223372036854775808 ≤ j.execution)
    (h2 : j.execution < 9223372036854775808)
    (h3 : 0 ≤ j.execution.tmod 1000000000) :
    encodeJob j = some ([0] ++ be16 j.identifier.length ++ j.identifier ++
        be64 j.execution ++ [statusByte j.status]) ∧
    decode ([0] ++ be16 j.identifier.length ++ j.identifier ++
        be64 j.execution ++ [statusByte j.status]) = some (.job j) := by
  constructor
  · unfold encodeJob
    rw [if_neg (by omega)]
  · have hshape : [0] ++ be16 j.identifier.length ++ j.identifier ++
        be64 j.execution ++ [statusByte j.status] =
        0 :: (be16 j.identifier.length ++ (j.identifier ++
          (be64 j.execution ++ [statusByte j.status]))) := by
      simp
    rw [hshape]
    have hjob : parseJobEntry (0 :: (be16 j.identifier.length ++ (j.identifier ++
        (be64 j.execution ++ [statusByte j.status])))) = some (.job j, []) := by
      unfold parseJobEntry
      simp only [parseSizedString_enc _ _ h, parseBe64_be64 _ _ h1 h2,
        decodeTimestamp_nonneg_tmod _ h3, parseStatus_statusByte]
    unfold decode
    rw [hjob]
    rfl

theorem parseSizedString_enc_nil (s : Bytes) (h : s.length ≤ 65535) :
    parseSizedString (be16 s.length ++ s) = some (s, []) := by
  have := parseSizedString_enc s [] h
  simpa using this

theorem parseRunner_shell (cmd : Bytes) (h : cmd.length ≤ 65535) :
    parseRunner (0 :: (be16 cmd.length ++ cmd)) = some (.shell cmd, []) := by
  unfold parseRunner
  simp only [parseSizedString_enc_nil _ h]

theorem parseRunner_amqp (dsn exchange rk : Bytes) (h1 : dsn.length ≤ 65535)
    (h2 : exchange.length ≤ 65535) (h3 : rk.length ≤ 65535) :
    parseRunner (1 :: (be16 dsn.length ++ (dsn ++ (be16 exchange.length ++
      (exchange ++ (be16 rk.length ++ rk)))))) =
      some (.amqp dsn exchange rk, []) := by
  unfold parseRunner
  simp only [parseSizedString_enc _ _ h1, parseSizedString_enc _ _ h2,
    parseSizedString_enc_nil _ h3]

theorem parseRuleEntry_enc (r : Rule) (er : Bytes)
    (hid : r.identifier.length ≤ 65535) (hpat : r.pattern.length ≤ 65535)
    (hrun : parseRunner er = some (r.runner, [])) :
    parseRuleEntry (1 :: (be16 r.identifier.length ++ (r.identifier ++
      (be16 r.pattern.length ++ (r.pattern ++ er))))) = some (.rule r, []) := by
  unfold parseRuleEntry
  simp only [parseSizedString_enc _ _ hid, parseSizedString_enc _ _ hpat, hrun]

/-- The `u16::MAX` string-length side conditions of the encoder, per runner. -/
def runnerStringsOk : Runner → Prop
  | .shell command => command.length ≤ 65535
  | .amqp dsn exchange routingKey =>
      dsn.length ≤ 65535 ∧ exchange.length ≤ 65535 ∧ routingKey.length ≤ 65535

/-- The `u16::MAX` string-length side conditions of the encoder, per entry. -/
def entryStringsOk : Entry → Prop
  | .job j => j.identifier.length ≤ 65535
  | .rule r => r.identifier.length ≤ 65535 ∧ r.pattern.length ≤ 65535 ∧
      runnerStringsOk r.runner

/-- The execution-instant side condition: an `i64` nanosecond count whose
truncating remainder modulo 10^9 is non-negative (instants at or after the
epoch, or whole seconds before it). -/
def entryInstantOk : Entry → Prop
  | .job j => -9223372036854775808 ≤ j.execution ∧
      j.execution < 9223372036854775808 ∧ 0 ≤ j.execution.tmod 1000000000
  | .rule _ => True

theorem decode_encodeRule (r : Rule) (hid : r.identifier.length ≤ 65535)
    (hpat : r.pattern.length ≤ 65535) (hrun : runnerStringsOk r.runner) :
    ∃ bs, encodeRule r = some bs ∧ decode bs = some (.rule r) := by
  obtain ⟨ri, rp, rr⟩ := r
  have her : ∃ er, encodeRunner rr = some er ∧ parseRunner er = some (rr, []) := by
    cases rr with
    | shell cmd =>
      refine ⟨[0] ++ be16 cmd.length ++ cmd, ?_, ?_⟩
      · unfold encodeRunner
        dsimp only
        rw [if_neg (by simpa using hrun)]
      · have hshape : [0] ++ be16 cmd.length ++ cmd =
            0 :: (be16 cmd.length ++ cmd) := by simp
        rw [hshape]
        exact parseRunner_shell cmd (by simpa using hrun)
    | amqp dsn exchange rk =>
      obtain ⟨ha, hb, hc⟩ := hrun
      refine ⟨[1] ++ be16 dsn.length ++ dsn ++ be16 exchange.length ++ exchange ++
        be16 rk.length ++ rk, ?_, ?_⟩
      · unfold encodeRunner
        dsimp only
        rw [if_neg (by omega), if_neg (by omega), if_neg (by omega)]
      · have hshape : [1] ++ be16 dsn.length ++ dsn ++ be16 exchange.length ++
            exchange ++ be16 rk.length ++ rk =
            1 :: (be16 dsn.length ++ (dsn ++ (be16 exchange.length ++
              (exchange ++ (be16 rk.length ++ rk))))) := by simp
        rw [hshape]
        exact parseRunner_amqp dsn exchange rk ha hb hc
  obtain ⟨er, her1, her2⟩ := her
  refine ⟨[1] ++ be16 ri.length ++ ri ++ be16 rp.length ++ rp ++ er, ?_, ?_⟩
  · unfold encodeRule
    dsimp only
    rw [if_neg (by simpa using hid), if_neg (by simpa using hpat), her1]
  · have hshape : [1] ++ be16 ri.length ++ ri ++ be16 rp.length ++ rp ++ er =
        1 :: (be16 ri.length ++ (ri ++ (be16 rp.length ++ (rp ++ er)))) := by
      simp
    rw [hshape]
    have hrule := parseRuleEntry_enc ⟨ri, rp, rr⟩ er (by simpa using hid)
      (by simpa using hpat) her2
    unfold decode
    rw [show parseJobEntry (1 :: (be16 ri.length ++ (ri ++ (be16 rp.length ++
      (rp ++ er))))) = none from rfl]
    rw [hrule]
    rfl

/-- C9 (amended): for every WAL entry all of whose strings are at most 65535
bytes and (for jobs) whose `i64` execution instant has a non-negative
truncating remainder modulo 10^9 — instants at or after the epoch, or whole
seconds — encoding succeeds and decoding the encoding yields the entry back;
and encoding fails whenever some string of the entry is 65536 bytes or more.
(An identifier of exactly 65535 bytes round-trips: see the witness.) -/
theorem encoder_round_trip (e : Entry) :
    (entryStringsOk e → entryInstantOk e →
      ∃ bs, encode e = some bs ∧ decode bs = some e) ∧
    (¬ entryStringsOk e → encode e = none) := by
  constructor
  · intro hs hi
    cases e with
    | job j =>
      obtain ⟨h1, h2, h3⟩ := hi
      obtain ⟨hc1, hc2⟩ := decode_encodeJob j hs h1 h2 h3
      exact ⟨_, hc1, hc2⟩
    | rule r =>
      obtain ⟨hid, hpat, hrun⟩ := hs
      exact decode_encodeRule r hid hpat hrun
  · intro hs
    cases e with
    | job j =>
      unfold encode encodeJob
      dsimp only
      rw [if_pos]
      unfold entryStringsOk at hs
      omega
    | rule r =>
      unfold entryStringsOk at hs
      unfold encode encodeRule
      dsimp only
      by_cases hid : r.identifier.length > 65535
      · rw [if_pos hid]
      · rw [if_neg hid]
        by_cases hpat : r.pattern.length > 65535
        · rw [if_pos hpat]
        · rw [if_neg hpat]
          have hrun : ¬ runnerStringsOk r.runner := by
            intro hr
            exact hs ⟨by omega, by omega, hr⟩
          have henc : encodeRunner r.runner = none := by
            cases hr : r.runner with
            | shell cmd =>
              rw [hr] at hrun
              unfold runnerStringsOk at hrun
              unfold encodeRunner
              dsimp only
              rw [if_pos (by omega)]
            | amqp dsn exchange rk =>
              rw [hr] at hrun
              unfold runnerStringsOk at hrun
              unfold encodeRunner
              dsimp only
              by_cases ha : dsn.length > 65535
              · rw [if_pos ha]
              · rw [if_neg ha]
                by_cases hb : exchange.length > 65535
                · rw [if_pos hb]
                · rw [if_neg hb]
                  rw [if_pos]
                  by_contra hc
                  exact hrun ⟨by omega, by omega, by omega⟩
          rw [henc]

/-- C9 counterexample: the claim as stated fails for an execution instant of
-1 nanosecond (1969-12-31T23:59:59.999999999Z): the entry encodes, but the
decoder's `(t % 1_000_000_000) as u32` cast produces 4294967295, which is
out of range for `Utc.timestamp` (a panic in the source, a failed decode in
the model), so decode(encode(entry)) does not yield the entry back. -/
theorem encoder_round_trip_cex :
    entryStringsOk (.job ⟨[], -1, .planned⟩) ∧
    (encode (.job ⟨[], -1, .planned⟩)).isSome = true ∧
    (encode (.job ⟨[], -1, .planned⟩)).bind decode = none := by
  refine ⟨?_, by decide, by decide⟩
  unfold entryStringsOk
  decide

/-- C9 witness: a job whose identifier is exactly 65535 bytes long encodes
and decodes back to itself. -/
theorem encoder_round_trip_witness :
    entryStringsOk (.job ⟨List.replicate 65535 97, 0, .planned⟩) ∧
    entryInstantOk (.job ⟨List.replicate 65535 97, 0, .planned⟩) ∧
    ∃ bs, encode (.job ⟨List.replicate 65535 97, 0, .planned⟩) = some bs ∧
      decode bs = some (.job ⟨List.replicate 65535 97, 0, .planned⟩) := by
  have hs : entryStringsOk (.job ⟨List.replicate 65535 97, 0, .planned⟩) := by
    unfold entryStringsOk
    dsimp only
    rw [List.length_replicate]
  have hi : entryInstantOk (.job ⟨List.replicate 65535 97, 0, .planned⟩) := by
    unfold entryInstantOk
    refine ⟨by norm_num, by norm_num, ?_⟩
    simp

  exact ⟨hs, hi, (encoder_round_trip _).1 hs hi⟩

/-! ## `database::storage::Storage` (C2): persist-then-apply -/

/-- Source `database::storage::Storage`: the in-memory job storage and rule map,
together with the write-ahead log contents (the sequence of encoded entries
appended to `logfile`).  The compaction machinery moves entries between
files without changing their logical content; for the persist-then-apply
claim the log is observed as the flat sequence of appended records. -/
structure Storage where
  jobStorage : JobStorage
  rules : Bytes → Option Rule
  log : List Bytes

/-- Source `persistence::Storage::persist`, seen through the WAL contents: encode
the entry (`EncodingFailure` when a string exceeds `u16::MAX` bytes), then
append the framed record to `logfile` with `write_sync`; the success of the
file write is an environment input `writeOk` (`WriteFailure` otherwise).
Returns the new log contents on success. -/
def Storage.persist (st : Storage) (e : Entry) (writeOk : Bool) :
    Option (List Bytes) :=
  match encode e with
  | none => none
  | some bs => if writeOk then some (st.log ++ [bs]) else none

/-- Source `Storage::set_job`: persist the job entry, and only on success apply it
to the in-memory job storage.  The `Bool` is `true` for `Ok(())`. -/
def Storage.setJob (st : Storage) (j : Job) (writeOk : Bool) : Storage × Bool :=
  match st.persist (.job j) writeOk with
  | some newLog =>
    ({ st with log := newLog, jobStorage := st.jobStorage.set j }, true)
  | none => (st, false)

/-- Source `Storage::set_rule`: persist the rule entry, and only on success insert
it into the in-memory rule map. -/
def Storage.setRule (st : Storage) (r : Rule) (writeOk : Bool) : Storage × Bool :=
  match st.persist (.rule r) writeOk with
  | some newLog =>
    ({ st with
        log := newLog,
        rules := fun k => if k = r.identifier then some r else st.rules k }, true)
  | none => (st, false)

/-- C2: for `set_job` and `set_rule`, the encoded entry is appended (synced)
to the write-ahead log exactly when the operation succeeds, and on success
the in-memory update is applied; when the persist step fails (encoding
failure or write failure) the operation returns an error and the state —
log, job storage and rule map — is exactly unchanged. -/
theorem storage_persist_then_apply (st : Storage) (j : Job) (r : Rule) (ok : Bool) :
    ((st.setJob j ok).2 = true ↔ ok = true ∧ (encode (.job j)).isSome = true) ∧
    ((st.setJob j ok).2 = true →
      ∃ bs, encode (.job j) = some bs ∧
        (st.setJob j ok).1.log = st.log ++ [bs] ∧
        (st.setJob j ok).1.jobStorage = st.jobStorage.set j ∧
        (st.setJob j ok).1.rules = st.rules) ∧
    ((st.setJob j ok).2 = false → (st.setJob j ok).1 = st) ∧
    ((st.setRule r ok).2 = true ↔ ok = true ∧ (encode (.rule r)).isSome = true) ∧
    ((st.setRule r ok).2 = true →
      ∃ bs, encode (.rule r) = some bs ∧
        (st.setRule r ok).1.log = st.log ++ [bs] ∧
        (st.setRule r ok).1.rules =
          (fun k => if k = r.identifier then some r else st.rules k) ∧
        (st.setRule r ok).1.jobStorage = st.jobStorage) ∧
    ((st.setRule r ok).2 = false → (st.setRule r ok).1 = st) := by
  have hj : ∀ e : Entry, ∀ res : Option (List Bytes),
      st.persist e ok = res →
      (res.isSome = true ↔ ok = true ∧ (encode e).isSome = true) ∧
      (∀ l, res = some l → ∃ bs, encode e = some bs ∧ l = st.log ++ [bs]) := by
    intro e res hres
    unfold Storage.persist at hres
    rcases henc : encode e with _ | bs
    · rw [henc] at hres
      subst hres
      simp
    · rw [henc] at hres
      dsimp only at hres
      cases ok with
      | true =>
        simp only [if_pos rfl] at hres
        subst hres
        simp
      | false =>
        simp at hres
        subst hres
        simp
  obtain ⟨hjiff, hjval⟩ := hj (.job j) (st.persist (.job j) ok) rfl
  obtain ⟨hriff, hrval⟩ := hj (.rule r) (st.persist (.rule r) ok) rfl
  refine ⟨?_, ?_, ?_, ?_, ?_, ?_⟩
  · unfold Storage.setJob
    rcases hp : st.persist (.job j) ok with _ | l
    · rw [hp] at hjiff
      simpa using hjiff
    · rw [hp] at hjiff
      simpa using hjiff
  · intro hok
    unfold Storage.setJob at hok ⊢
    rcases hp : st.persist (.job j) ok with _ | l
    · rw [hp] at hok
      cases hok
    · rw [hp] at hjval
      obtain ⟨bs, hbs, hl⟩ := hjval l rfl
      exact ⟨bs, hbs, by rw [hl], rfl, rfl⟩
  · intro hok
    unfold Storage.setJob at hok ⊢
    rcases hp : st.persist (.job j) ok with _ | l
    · rfl
    · rw [hp] at hok
      cases hok
  · unfold Storage.setRule
    rcases hp : st.persist (.rule r) ok with _ | l
    · rw [hp] at hriff
      simpa using hriff
    · rw [hp] at hriff
      simpa using hriff
  · intro hok
    unfold Storage.setRule at hok ⊢
    rcases hp : st.persist (.rule r) ok with _ | l
    · rw [hp] at hok
      cases hok
    · rw [hp] at hrval
      obtain ⟨bs, hbs, hl⟩ := hrval l rfl
      exact ⟨bs, hbs, by rw [hl], rfl, rfl⟩
  · intro hok
    unfold Storage.setRule at hok ⊢
    rcases hp : st.persist (.rule r) ok with _ | l
    · rfl
    · rw [hp] at hok
      cases hok

/-- C2 witness: on an empty storage, a successful `set_job` appends the
encoded record and applies the in-memory update, and a `set_job` whose sync
fails leaves the storage exactly unchanged. -/
theorem storage_persist_then_apply_witness :
    ((Storage.mk JobStorage.empty (fun _ => none) []).setJob ⟨[97], 0, .planned⟩
        false).1 = Storage.mk JobStorage.empty (fun _ => none) [] ∧
    ∃ bs, encode (.job ⟨[97], 0, .planned⟩) = some bs ∧
      ((Storage.mk JobStorage.empty (fun _ => none) []).setJob ⟨[97], 0, .planned⟩
          true).1.log = [] ++ [bs] := by
  constructor
  · exact (storage_persist_then_apply
      (Storage.mk JobStorage.empty (fun _ => none) []) ⟨[97], 0, .planned⟩
      ⟨[], [], .shell []⟩ false).2.2.1 (by decide)
  · obtain ⟨bs, h1, h2, -, -⟩ := (storage_persist_then_apply
      (Storage.mk JobStorage.empty (fun _ => none) []) ⟨[97], 0, .planned⟩
      ⟨[], [], .shell []⟩ true).2.1 (by decide)
    exact ⟨bs, h1, h2⟩

/-! ## Recovery and compaction (`database::storage::persistence`, C3 and C4) -/

/-- Source `Decoded::get_subject`: the byte of `'j'` (106) or `'r'` (114) prefixed
to the identifier; the unit of last-writer-wins. -/
def Entry.subject : Entry → Bytes
  | .job j => 106 :: j.identifier
  | .rule r => 114 :: r.identifier

/-- The last record for a given subject in a record sequence; this is what
"the last record for each subject wins" (realized in the source by
`HashMap::insert` in read order) leaves for that subject. -/
def lastEntryFor : List Entry → Bytes → Option Entry
  | [], _ => none
  | e :: es, s =>
    match lastEntryFor es s with
    | some x => some x
    | none => if e.subject = s then some e else none

/-- Deduplication by subject keeping only the newest record (the source
iterates the records in reverse and keeps the first hit per subject).  The
survivors are kept in order of last occurrence; the source holds them in a
`HashMap` whose iteration order is arbitrary and irrelevant, each surviving
subject being unique. -/
def dedupKeepLast : List Entry → List Entry
  | [] => []
  | e :: es =>
    if es.any (fun x => x.subject = e.subject) then dedupKeepLast es
    else e :: dedupKeepLast es

/-- One step of `storage::Storage::initialize`'s reconstruction loop: a job
record goes to the job storage (`job_storage.set`), a rule record to the
rule map (`rules.insert`). -/
def applyEntry (st : JobStorage × (Bytes → Option Rule)) (e : Entry) :
    JobStorage × (Bytes → Option Rule) :=
  match e with
  | .job j => (st.1.set j, st.2)
  | .rule r => (st.1, fun k => if k = r.identifier then some r else st.2 k)

/-- Source `Storage::initialize` over the already-decoded record streams: keep the
last record per subject, then reconstruct the in-memory stores from the
surviving set. -/
def initializeStorage (records : List Entry) :
    JobStorage × (Bytes → Option Rule) :=
  (dedupKeepLast records).foldl applyEntry (JobStorage.empty, fun _ => none)

theorem lastEntryFor_cons_some (e : Entry) (es : List Entry) (s : Bytes)
    (x : Entry) (h : lastEntryFor es s = some x) :
    lastEntryFor (e :: es) s = some x := by
  unfold lastEntryFor
  rw [h]

theorem lastEntryFor_cons_none (e : Entry) (es : List Entry) (s : Bytes)
    (h : lastEntryFor es s = none) :
    lastEntryFor (e :: es) s = if e.subject = s then some e else none := by
  unfold lastEntryFor
  rw [h]

theorem dedupKeepLast_cons_dup (e : Entry) (es : List Entry)
    (h : es.any (fun x => x.subject = e.subject) = true) :
    dedupKeepLast (e :: es) = dedupKeepLast es := by
  conv_lhs => unfold dedupKeepLast
  rw [if_pos h]

theorem dedupKeepLast_cons_new (e : Entry) (es : List Entry)
    (h : es.any (fun x => x.subject = e.subject) = false) :
    dedupKeepLast (e :: es) = e :: dedupKeepLast es := by
  conv_lhs => unfold dedupKeepLast
  rw [if_neg (by simp [h])]

theorem any_subject_iff (es : List Entry) (s : Bytes) :
    es.any (fun x => x.subject = s) = true ↔ ∃ z ∈ es, z.subject = s := by
  rw [List.any_eq_true]
  constructor
  · rintro ⟨z, hz, hs⟩
    exact ⟨z, hz, by simpa using hs⟩
  · rintro ⟨z, hz, hs⟩
    exact ⟨z, hz, by simpa using hs⟩

theorem lastEntryFor_spec (l : List Entry) (s : Bytes) :
    (match lastEntryFor l s with
     | none => ∀ z ∈ l, z.subject ≠ s
     | some x => x ∈ l ∧ x.subject = s) := by
  induction l with
  | nil => simp [lastEntryFor]
  | cons e es ih =>
    rcases h : lastEntryFor es s with _ | x
    · rw [h] at ih
      by_cases hs : e.subject = s
      · rw [lastEntryFor_cons_none e es s h, if_pos hs]
        exact ⟨List.mem_cons_self e es, hs⟩
      · rw [lastEntryFor_cons_none e es s h, if_neg hs]
        intro z hz
        rcases List.mem_cons.mp hz with rfl | hz
        · exact hs
        · exact ih z hz
    · rw [h] at ih
      rw [lastEntryFor_cons_some e es s x h]
      exact ⟨List.mem_cons_of_mem e ih.1, ih.2⟩

theorem lastEntryFor_none_iff (l : List Entry) (s : Bytes) :
    lastEntryFor l s = none ↔ ∀ z ∈ l, z.subject ≠ s := by
  have hspec := lastEntryFor_spec l s
  rcases h : lastEntryFor l s with _ | x
  · rw [h] at hspec
    exact ⟨fun _ => hspec, fun _ => rfl⟩
  · rw [h] at hspec
    constructor
    · intro hc
      cases hc
    · intro hall
      exact absurd hspec.2 (hall x hspec.1)

theorem mem_dedupKeepLast (l : List Entry) (x : Entry) :
    x ∈ dedupKeepLast l ↔ lastEntryFor l x.subject = some x := by
  induction l with
  | nil => simp [dedupKeepLast, lastEntryFor]
  | cons e es ih =>
    by_cases hdup : es.any (fun z => z.subject = e.subject) = true
    · rw [dedupKeepLast_cons_dup e es hdup, ih]
      rcases h : lastEntryFor es x.subject with _ | y
      · rw [lastEntryFor_cons_none e es _ h]
        by_cases hs : e.subject = x.subject
        · rw [if_pos hs]
          constructor
          · intro hc
            cases hc
          · intro he
            -- e would survive, but a later record shares its subject
            obtain ⟨z, hz, hzs⟩ := (any_subject_iff es e.subject).mp hdup
            have := (lastEntryFor_none_iff es x.subject).mp h z hz
            rw [hzs, hs] at this
            exact absurd rfl this
        · rw [if_neg hs]
      · rw [lastEntryFor_cons_some e es _ y h]
    · have hdup2 : es.any (fun z => z.subject = e.subject) = false := by
        simpa using hdup
      rw [dedupKeepLast_cons_new e es hdup2]
      rcases h : lastEntryFor es x.subject with _ | y
      · rw [lastEntryFor_cons_none e es _ h]
        simp only [List.mem_cons, ih, h]
        by_cases hs : e.subject = x.subject
        · rw [if_pos hs]
          constructor
          · rintro (rfl | hc)
            · rfl
            · cases hc
          · intro he
            left
            exact (Option.some_inj.mp he).symm
        · rw [if_neg hs]
          constructor
          · rintro (rfl | hc)
            · exact absurd rfl hs
            · exact hc
          · intro hc
            cases hc
      · rw [lastEntryFor_cons_some e es _ y h]
        simp only [List.mem_cons, ih, h]
        constructor
        · rintro (rfl | hc)
          · -- x = e cannot survive: es already holds its subject
            have hspec := lastEntryFor_spec es x.subject
            rw [h] at hspec
            have : es.any (fun z => z.subject = x.subject) = true :=
              (any_subject_iff es x.subject).mpr ⟨y, hspec.1, hspec.2⟩
            rw [this] at hdup2
            cases hdup2
          · exact hc
        · intro hc
          right
          exact hc

theorem dedupKeepLast_subset (l : List Entry) (x : Entry)
    (h : x ∈ dedupKeepLast l) : x ∈ l := by
  have := (mem_dedupKeepLast l x).mp h
  have hspec := lastEntryFor_spec l x.subject
  rw [this] at hspec
  exact hspec.1

theorem dedupKeepLast_subjects_nodup (l : List Entry) :
    ((dedupKeepLast l).map Entry.subject).Nodup := by
  induction l with
  | nil => simp [dedupKeepLast]
  | cons e es ih =>
    by_cases hdup : es.any (fun z => z.subject = e.subject) = true
    · rw [dedupKeepLast_cons_dup e es hdup]
      exact ih
    · have hdup2 : es.any (fun z => z.subject = e.subject) = false := by
        simpa using hdup
      rw [dedupKeepLast_cons_new e es hdup2, List.map_cons, List.nodup_cons]
      refine ⟨?_, ih⟩
      intro hmem
      obtain ⟨z, hz, hzs⟩ := List.mem_map.mp hmem
      have hzes := dedupKeepLast_subset es z hz
      have : es.any (fun w => w.subject = e.subject) = true :=
        (any_subject_iff es e.subject).mpr ⟨z, hzes, hzs⟩
      rw [this] at hdup2
      cases hdup2

theorem applyFold_jobs_untouched (es : List Entry) :
    ∀ (s0 : JobStorage × (Bytes → Option Rule)) (id : Bytes),
    (∀ j : Job, .job j ∈ es → j.identifier ≠ id) →
    (es.foldl applyEntry s0).1.jobs id = s0.1.jobs id := by
  induction es with
  | nil =>
    intro s0 id _
    rfl
  | cons a rest ih =>
    intro s0 id hnot
    rw [List.foldl_cons]
    rw [ih _ id (fun j hj => hnot j (List.mem_cons_of_mem a hj))]
    cases a with
    | job j =>
      show JobMap.set s0.1.jobs j.identifier j id = s0.1.jobs id
      unfold JobMap.set
      rw [if_neg (fun hc => hnot j (List.mem_cons_self _ _) hc.symm)]
    | rule r => rfl

theorem applyFold_rules_untouched (es : List Entry) :
    ∀ (s0 : JobStorage × (Bytes → Option Rule)) (id : Bytes),
    (∀ r : Rule, .rule r ∈ es → r.identifier ≠ id) →
    (es.foldl applyEntry s0).2 id = s0.2 id := by
  induction es with
  | nil =>
    intro s0 id _
    rfl
  | cons a rest ih =>
    intro s0 id hnot
    rw [List.foldl_cons]
    rw [ih _ id (fun r hr => hnot r (List.mem_cons_of_mem a hr))]
    cases a with
    | job j => rfl
    | rule r =>
      show (if id = r.identifier then some r else s0.2 id) = s0.2 id
      rw [if_neg (fun hc => hnot r (List.mem_cons_self _ _) hc.symm)]

theorem applyFold_jobs_mem (es : List Entry) :
    ∀ (s0 : JobStorage × (Bytes → Option Rule)) (j : Job), .job j ∈ es →
    (es.map Entry.subject).Nodup →
    (es.foldl applyEntry s0).1.jobs j.identifier = some j := by
  induction es with
  | nil =>
    intro s0 j h
    cases h
  | cons a rest ih =>
    intro s0 j hmem hnd
    rw [List.map_cons, List.nodup_cons] at hnd
    obtain ⟨hna, hndr⟩ := hnd
    rw [List.foldl_cons]
    rcases List.mem_cons.mp hmem with heq | hmem2
    · subst heq
      rw [applyFold_jobs_untouched rest _ j.identifier ?_]
      · show JobMap.set s0.1.jobs j.identifier j j.identifier = some j
        unfold JobMap.set
        rw [if_pos rfl]
      · intro j' hj' hid
        refine hna ?_
        have : Entry.subject (.job j') = Entry.subject (.job j) := by
          simp [Entry.subject, hid]
        rw [← this]
        exact List.mem_map_of_mem Entry.subject hj'
    · exact ih _ j hmem2 hndr

theorem applyFold_rules_mem (es : List Entry) :
    ∀ (s0 : JobStorage × (Bytes → Option Rule)) (r : Rule), .rule r ∈ es →
    (es.map Entry.subject).Nodup →
    (es.foldl applyEntry s0).2 r.identifier = some r := by
  induction es with
  | nil =>
    intro s0 r h
    cases h
  | cons a rest ih =>
    intro s0 r hmem hnd
    rw [List.map_cons, List.nodup_cons] at hnd
    obtain ⟨hna, hndr⟩ := hnd
    rw [List.foldl_cons]
    rcases List.mem_cons.mp hmem with heq | hmem2
    · subst heq
      rw [applyFold_rules_untouched rest _ r.identifier ?_]
      · show (if r.identifier = r.identifier then some r else s0.2 r.identifier) =
          some r
        rw [if_pos rfl]
      · intro r' hr' hid
        refine hna ?_
        have : Entry.subject (.rule r') = Entry.subject (.rule r) := by
          simp [Entry.subject, hid]
        rw [← this]
        exact List.mem_map_of_mem Entry.subject hr'
    · exact ih _ r hmem2 hndr

theorem initJobs_lookup (l : List Entry) (id : Bytes) :
    (initializeStorage l).1.jobs id =
      (match lastEntryFor l (106 :: id) with
       | some (.job j) => some j
       | _ => none) := by
  unfold initializeStorage
  rcases h : lastEntryFor l (106 :: id) with _ | x
  · have hnone : ∀ j : Job, .job j ∈ dedupKeepLast l → j.identifier ≠ id := by
      intro j hj hid2
      have hmem := (mem_dedupKeepLast l (.job j)).mp hj
      rw [show Entry.subject (.job j) = 106 :: j.identifier from rfl, hid2, h] at hmem
      cases hmem
    rw [applyFold_jobs_untouched _ _ id hnone]
    rfl
  · cases x with
    | job j =>
      have hspec := lastEntryFor_spec l (106 :: id)
      rw [h] at hspec
      have hsub : 106 :: j.identifier = 106 :: id := hspec.2
      injection hsub with h1 h2
      have hmem : (.job j : Entry) ∈ dedupKeepLast l :=
        (mem_dedupKeepLast l _).mpr (by rw [show Entry.subject (.job j) =
          106 :: j.identifier from rfl, h2, h])
      have hlook := applyFold_jobs_mem (dedupKeepLast l)
        (JobStorage.empty, fun _ => none) j hmem (dedupKeepLast_subjects_nodup l)
      rw [h2] at hlook
      rw [hlook]
    | rule r =>
      have hspec := lastEntryFor_spec l (106 :: id)
      rw [h] at hspec
      have hsub : 114 :: r.identifier = 106 :: id := hspec.2
      injection hsub with h1 h2
      cases h1

theorem initRules_lookup (l : List Entry) (id : Bytes) :
    (initializeStorage l).2 id =
      (match lastEntryFor l (114 :: id) with
       | some (.rule r) => some r
       | _ => none) := by
  unfold initializeStorage
  rcases h : lastEntryFor l (114 :: id) with _ | x
  · have hnone : ∀ r : Rule, .rule r ∈ dedupKeepLast l → r.identifier ≠ id := by
      intro r hr hid2
      have hmem := (mem_dedupKeepLast l (.rule r)).mp hr
      rw [show Entry.subject (.rule r) = 114 :: r.identifier from rfl, hid2, h] at hmem
      cases hmem
    rw [applyFold_rules_untouched _ _ id hnone]
  · cases x with
    | rule r =>
      have hspec := lastEntryFor_spec l (114 :: id)
      rw [h] at hspec
      have hsub : 114 :: r.identifier = 114 :: id := hspec.2
      injection hsub with h1 h2
      have hmem : (.rule r : Entry) ∈ dedupKeepLast l :=
        (mem_dedupKeepLast l _).mpr (by rw [show Entry.subject (.rule r) =
          114 :: r.identifier from rfl, h2, h])
      have hlook := applyFold_rules_mem (dedupKeepLast l)
        (JobStorage.empty, fun _ => none) r hmem (dedupKeepLast_subjects_nodup l)
      rw [h2] at hlook
      rw [hlook]
    | job j =>
      have hspec := lastEntryFor_spec l (114 :: id)
      rw [h] at hspec
      have hsub : 106 :: j.identifier = 114 :: id := hspec.2
      injection hsub with h1 h2
      cases h1

/-- C3: initialization reads `logfile.compressed`, then `logfile.to_compress`,
then `logfile`; per subject exactly the last record read survives, and the
in-memory job and rule stores are populated from exactly this surviving set:
each job identifier recovers the last-persisted job record and each rule
identifier the last-persisted rule record of the concatenated streams. -/
theorem initialize_recovers_last_wins (C T L : List Entry) :
    ((dedupKeepLast (C ++ T ++ L)).map Entry.subject).Nodup ∧
    (∀ x, x ∈ dedupKeepLast (C ++ T ++ L) ↔
        lastEntryFor (C ++ T ++ L) x.subject = some x) ∧
    (∀ id, (initializeStorage (C ++ T ++ L)).1.jobs id =
        (match lastEntryFor (C ++ T ++ L) (106 :: id) with
         | some (.job j) => some j
         | _ => none)) ∧
    (∀ id, (initializeStorage (C ++ T ++ L)).2 id =
        (match lastEntryFor (C ++ T ++ L) (114 :: id) with
         | some (.rule r) => some r
         | _ => none)) :=
  ⟨dedupKeepLast_subjects_nodup _, fun x => mem_dedupKeepLast _ x,
   fun id => initJobs_lookup _ id, fun id => initRules_lookup _ id⟩

theorem lastEntryFor_append (l1 l2 : List Entry) (s : Bytes) :
    lastEntryFor (l1 ++ l2) s =
      match lastEntryFor l2 s with
      | some x => some x
      | none => lastEntryFor l1 s := by
  induction l1 with
  | nil =>
    simp only [List.nil_append]
    rcases h : lastEntryFor l2 s with _ | x
    · rfl
    · rfl
  | cons e l1 ih =>
    rw [List.cons_append]
    rcases h : lastEntryFor (l1 ++ l2) s with _ | x
    · rw [lastEntryFor_cons_none e _ s h]
      rw [h] at ih
      rcases h2 : lastEntryFor l2 s with _ | y
      · rw [h2] at ih
        rw [lastEntryFor_cons_none e l1 s ih.symm]
      · rw [h2] at ih
        cases ih
    · rw [lastEntryFor_cons_some e _ s x h]
      rw [h] at ih
      rcases h2 : lastEntryFor l2 s with _ | y
      · rw [h2] at ih
        rw [lastEntryFor_cons_some e l1 s x ih.symm]
      · rw [h2] at ih
        exact ih

theorem lastEntryFor_dedup (l : List Entry) (s : Bytes) :
    lastEntryFor (dedupKeepLast l) s = lastEntryFor l s := by
  induction l with
  | nil => rfl
  | cons e es ih =>
    by_cases hdup : es.any (fun z => z.subject = e.subject) = true
    · rw [dedupKeepLast_cons_dup e es hdup, ih]
      rcases h : lastEntryFor es s with _ | x
      · rw [lastEntryFor_cons_none e es s h]
        by_cases hs : e.subject = s
        · obtain ⟨z, hz, hzs⟩ := (any_subject_iff es e.subject).mp hdup
          have hzn := (lastEntryFor_none_iff es s).mp h z hz
          rw [hzs] at hzn
          exact absurd hs hzn
        · rw [if_neg hs]
      · rw [lastEntryFor_cons_some e es s x h]
    · have hdup2 : es.any (fun z => z.subject = e.subject) = false := by
        simpa using hdup
      rw [dedupKeepLast_cons_new e es hdup2]
      rcases h : lastEntryFor (dedupKeepLast es) s with _ | x
      · rw [lastEntryFor_cons_none e _ s h]
        rw [h] at ih
        rw [lastEntryFor_cons_none e es s ih.symm]
      · rw [lastEntryFor_cons_some e _ s x h]
        rw [h] at ih
        rw [lastEntryFor_cons_some e es s x ih.symm]

theorem lastEntryFor_filter (p : Entry → Bool) (l : List Entry) (s : Bytes)
    (hp : ∀ e : Entry, e.subject = s → p e = true) :
    lastEntryFor (l.filter p) s = lastEntryFor l s := by
  induction l with
  | nil => rfl
  | cons e es ih =>
    by_cases hpe : p e = true
    · rw [List.filter_cons_of_pos hpe]
      rcases h : lastEntryFor (es.filter p) s with _ | x
      · rw [lastEntryFor_cons_none e _ s h]
        rw [h] at ih
        rw [lastEntryFor_cons_none e es s ih.symm]
      · rw [lastEntryFor_cons_some e _ s x h]
        rw [h] at ih
        rw [lastEntryFor_cons_some e es s x ih.symm]
    · rw [List.filter_cons_of_neg hpe]
      rw [ih]
      have hs : e.subject ≠ s := fun hc => hpe (hp e hc)
      rcases h : lastEntryFor es s with _ | x
      · rw [lastEntryFor_cons_none e es s h, if_neg hs]
      · rw [lastEntryFor_cons_some e es s x h]

/-- Source `persistence::Storage::compress`: keep the entries of
`logfile.compressed` whose subject has no newer record in
`logfile.to_compress`, then append the per-subject newest records of
`logfile.to_compress` (the source writes the latter from a `HashMap` in
arbitrary order; each surviving subject is unique, so recovery is
order-insensitive and the survivors are kept in order of last occurrence). -/
def compress (compressed toCompress : List Entry) : List Entry :=
  compressed.filter
    (fun e => !(toCompress.any (fun x => x.subject = e.subject))) ++
    dedupKeepLast toCompress

theorem compress_lastEntryFor (C T : List Entry) (s : Bytes) :
    lastEntryFor (compress C T) s = lastEntryFor (C ++ T) s := by
  unfold compress
  rw [lastEntryFor_append, lastEntryFor_append, lastEntryFor_dedup]
  rcases h : lastEntryFor T s with _ | x
  · have hnone := (lastEntryFor_none_iff T s).mp h
    apply lastEntryFor_filter
    intro e hes
    dsimp only
    have hany : T.any (fun x => x.subject = e.subject) = false := by
      cases hcase : T.any (fun x => x.subject = e.subject) with
      | true =>
        obtain ⟨z, hz, hzs⟩ := (any_subject_iff T e.subject).mp hcase
        rw [hes] at hzs
        exact absurd hzs (hnone z hz)
      | false => rfl
    rw [hany]
    rfl
  · rfl

/-- C4: compaction never changes the recovered state: for any compacted
contents `C`, flushed contents `T` and subsequent logfile contents `L`, the
per-subject last record — and hence the reconstructed job and rule stores —
of `compress C T ++ L` and of `C ++ T ++ L` coincide. -/
theorem compaction_preserves_recovery (C T L : List Entry) :
    (∀ s, lastEntryFor (compress C T ++ L) s = lastEntryFor (C ++ T ++ L) s) ∧
    (∀ id, (initializeStorage (compress C T ++ L)).1.jobs id =
        (initializeStorage (C ++ T ++ L)).1.jobs id) ∧
    (∀ id, (initializeStorage (compress C T ++ L)).2 id =
        (initializeStorage (C ++ T ++ L)).2 id) := by
  have hs : ∀ s, lastEntryFor (compress C T ++ L) s =
      lastEntryFor (C ++ T ++ L) s := by
    intro s
    rw [lastEntryFor_append, lastEntryFor_append (C ++ T) L, compress_lastEntryFor]
  refine ⟨hs, ?_, ?_⟩
  · intro id
    rw [initJobs_lookup, initJobs_lookup, hs]
  · intro id
    rw [initRules_lookup, initRules_lookup, hs]

/-! ## The job state machine over system runs (C5)

The database runs single-threaded: per tick it applies client instructions
(`Set::handle`), triggers due Planned jobs (`trigger_execution`), and
applies pulled execution results (`handle_results`).  The state observable
for the state-machine claim is the job map plus the identifiers of
triggered jobs whose single execution result has not yet been applied (the
execution request/result channels; the processor reports exactly once per
request).  Each step kind mirrors one code path, with persist success an
environment input (on failure the code leaves the state unchanged —
`trigger_execution` skips the job, `handle_results` retains the result).
The job map is keyed by identifier (`set_job` keys entries by the job's own
identifier), so steps write `⟨id, _, _⟩` at key `id`. -/

/-- The actions driving the database. -/
inductive Act where
  | clientSet (id : Bytes) (t : Int)
  | trigger (id : Bytes) (paired : Bool) (persistOk : Bool)
  | result (id : Bytes) (ok : Bool) (persistOk : Bool)

/-- The database's observable state for the state-machine claim. -/
structure SysState where
  jobs : JobMap
  pending : List Bytes

/-- The initial state: empty stores, no in-flight execution. -/
def sysInit : SysState :=
  ⟨fun _ => none, []⟩

/-- One database step (see the section comment for the code paths). -/
def step (s : SysState) : Act → SysState
  | .clientSet id t => { s with jobs := (Set.handle id t s.jobs).1 }
  | .trigger id paired persistOk =>
    match s.jobs id with
    | some j =>
      if j.status = .planned then
        if paired then
          if persistOk then
            { jobs := JobMap.set s.jobs id ⟨id, j.execution, .triggered⟩,
              pending := s.pending ++ [id] }
          else s
        else
          if persistOk then
            { s with jobs := JobMap.set s.jobs id ⟨id, j.execution, .failed⟩ }
          else s
      else s
    | none => s
  | .result id ok persistOk =>
    if id ∈ s.pending then
      match s.jobs id with
      | some j =>
        if persistOk then
          { jobs := JobMap.set s.jobs id
              ⟨id, j.execution, if ok then .executed else .failed⟩,
            pending := s.pending.erase id }
        else s
      | none => { s with pending := s.pending.erase id }
    else s

/-- Source `Set::handle` leaves every other key of the job map unchanged. -/
theorem setHandle_other (cid : Bytes) (t : Int) (m : JobMap) (id : Bytes)
    (h : id ≠ cid) : (Set.handle cid t m).1 id = m id := by
  rcases hm : m cid with _ | job
  · simp [Set.handle, hm, JobMap.set, h]
  · obtain ⟨ji, jt, js⟩ := job
    cases js <;> simp [Set.handle, hm, JobMap.set, h]

/-- The runtime invariant: every in-flight identifier is held at most once
and refers to a job whose current status is Triggered. -/
structure SysInv (s : SysState) : Prop where
  pend_triggered : ∀ id ∈ s.pending, ∃ j, s.jobs id = some j ∧ j.status = .triggered
  pend_nodup : s.pending.Nodup

theorem sysInv_init : SysInv sysInit := by
  constructor
  · intro id h
    cases h
  · exact List.nodup_nil

theorem sysInv_step {s : SysState} (hinv : SysInv s) (a : Act) :
    SysInv (step s a) := by
  obtain ⟨pend_triggered, pend_nodup⟩ := hinv
  cases a with
  | clientSet cid t =>
    refine ⟨?_, pend_nodup⟩
    intro p hp
    obtain ⟨j, hj, htr⟩ := pend_triggered p hp
    by_cases hid : p = cid
    · subst hid
      have : (Set.handle p t s.jobs).1 = s.jobs := by
        simp [Set.handle, hj, htr]
      rw [show (step s (.clientSet p t)).jobs = (Set.handle p t s.jobs).1 from rfl,
        this]
      exact ⟨j, hj, htr⟩
    · rw [show (step s (.clientSet cid t)).jobs = (Set.handle cid t s.jobs).1 from
        rfl, setHandle_other cid t s.jobs p hid]
      exact ⟨j, hj, htr⟩
  | trigger tid paired pok =>
    show SysInv (step s (.trigger tid paired pok))
    unfold step
    dsimp only
    rcases hm : s.jobs tid with _ | j
    · exact ⟨pend_triggered, pend_nodup⟩
    · dsimp only
      by_cases hpl : j.status = .planned
      · rw [if_pos hpl]
        have htid_not : tid ∉ s.pending := by
          intro hc
          obtain ⟨j', hj', htr⟩ := pend_triggered tid hc
          rw [hm] at hj'
          cases hj'
          rw [htr] at hpl
          cases hpl
        cases paired with
        | true =>
          cases pok with
          | true =>
            rw [if_pos rfl, if_pos rfl]
            constructor
            · intro p hp
              rcases List.mem_append.mp hp with hp | hp
              · obtain ⟨j', hj', htr⟩ := pend_triggered p hp
                have hne : p ≠ tid := fun hc => htid_not (hc ▸ hp)
                refine ⟨j', ?_, htr⟩
                show JobMap.set s.jobs tid _ p = some j'
                unfold JobMap.set
                rw [if_neg hne]
                exact hj'
              · rw [List.mem_singleton.mp hp]
                refine ⟨⟨tid, j.execution, .triggered⟩, ?_, rfl⟩
                show JobMap.set s.jobs tid _ tid = _
                unfold JobMap.set
                rw [if_pos rfl]
            · rw [List.nodup_append]
              exact ⟨pend_nodup, List.nodup_singleton tid,
                fun p hp hps => htid_not ((List.mem_singleton.mp hps) ▸ hp)⟩
          | false =>
            rw [if_pos rfl, if_neg (by simp)]
            exact ⟨pend_triggered, pend_nodup⟩
        | false =>
          cases pok with
          | true =>
            rw [if_neg (by simp), if_pos rfl]
            constructor
            · intro p hp
              obtain ⟨j', hj', htr⟩ := pend_triggered p hp
              have hne : p ≠ tid := fun hc => htid_not (hc ▸ hp)
              refine ⟨j', ?_, htr⟩
              show JobMap.set s.jobs tid _ p = some j'
              unfold JobMap.set
              rw [if_neg hne]
              exact hj'
            · exact pend_nodup
          | false =>
            rw [if_neg (by simp), if_neg (by simp)]
            exact ⟨pend_triggered, pend_nodup⟩
      · rw [if_neg hpl]
        exact ⟨pend_triggered, pend_nodup⟩
  | result rid ok pok =>
    show SysInv (step s (.result rid ok pok))
    unfold step
    dsimp only
    by_cases hp : rid ∈ s.pending
    · rw [if_pos hp]
      rcases hm : s.jobs rid with _ | j
      · constructor
        · intro p hpe
          exact pend_triggered p (List.mem_of_mem_erase hpe)
        · exact pend_nodup.erase rid
      · dsimp only
        cases pok with
        | true =>
          rw [if_pos rfl]
          constructor
          · intro p hpe
            have hpp := (pend_nodup.mem_erase_iff).mp hpe
            obtain ⟨j', hj', htr⟩ := pend_triggered p hpp.2
            refine ⟨j', ?_, htr⟩
            show JobMap.set s.jobs rid _ p = some j'
            unfold JobMap.set
            rw [if_neg hpp.1]
            exact hj'
          · exact pend_nodup.erase rid
        | false =>
          rw [if_neg (by simp)]
          exact ⟨pend_triggered, pend_nodup⟩
    · rw [if_neg hp]
      exact ⟨pend_triggered, pend_nodup⟩

theorem sysInv_foldl (acts : List Act) : SysInv (acts.foldl step sysInit) := by
  suffices h : ∀ s, SysInv s → SysInv (acts.foldl step s) from h sysInit sysInv_init
  induction acts with
  | nil => exact fun s h => h
  | cons a rest ih =>
    intro s h
    exact ih (step s a) (sysInv_step h a)

theorem step_trigger_other (s : SysState) (tid : Bytes) (paired pok : Bool)
    (id : Bytes) (h : id ≠ tid) :
    (step s (.trigger tid paired pok)).jobs id = s.jobs id := by
  unfold step
  dsimp only
  rcases s.jobs tid with _ | j
  · rfl
  · dsimp only
    by_cases hpl : j.status = .planned
    · rw [if_pos hpl]
      cases paired <;> cases pok <;> simp [JobMap.set, h]
    · rw [if_neg hpl]

theorem step_result_other (s : SysState) (rid : Bytes) (ok pok : Bool)
    (id : Bytes) (h : id ≠ rid) :
    (step s (.result rid ok pok)).jobs id = s.jobs id := by
  unfold step
  dsimp only
  by_cases hp : rid ∈ s.pending
  · rw [if_pos hp]
    rcases s.jobs rid with _ | j
    · rfl
    · dsimp only
      cases pok <;> simp [JobMap.set, h]
  · rw [if_neg hp]

/-- The transition table of §4.2, as asserted by the claim. -/
def allowedTransition (a b : Status) : Prop :=
  (a = .planned ∧ b = .triggered) ∨ (a = .planned ∧ b = .failed) ∨
  (a = .triggered ∧ b = .executed) ∨ (a = .triggered ∧ b = .failed) ∨
  (a = .executed ∧ b = .planned) ∨ (a = .failed ∧ b = .planned) ∨
  (a = .planned ∧ b = .planned)

theorem step_transition {s : SysState} (hinv : SysInv s) (a : Act) (id : Bytes)
    (jb ja : Job) (hb : s.jobs id = some jb) (ha : (step s a).jobs id = some ja)
    (hne : ja ≠ jb) :
    allowedTransition jb.status ja.status ∧
    (∀ rid ok pok, a = .result rid ok pok → jb.status = .triggered) ∧
    (∀ cid t, a = .clientSet cid t → jb.status ≠ .triggered) := by
  cases a with
  | clientSet cid t =>
    by_cases hid : id = cid
    · subst hid
      obtain ⟨ji, jt, js⟩ := jb
      cases js with
      | planned =>
        have hja : ja = ⟨ji, t, .planned⟩ := by
          simp only [show (step s (.clientSet id t)).jobs =
            (Set.handle id t s.jobs).1 from rfl] at ha
          simp [Set.handle, hb, JobMap.set] at ha
          exact ha.symm
        refine ⟨?_, ?_, ?_⟩
        · rw [hja]
          right; right; right; right; right; right
          exact ⟨rfl, rfl⟩
        · intro rid ok pok heq
          cases heq
        · intro cid' t' heq
          intro hc
          cases hc
      | triggered =>
        have : ja = ⟨ji, jt, .triggered⟩ := by
          simp only [show (step s (.clientSet id t)).jobs =
            (Set.handle id t s.jobs).1 from rfl] at ha
          simp [Set.handle, hb] at ha
          exact ha.symm
        exact absurd this hne
      | executed =>
        have hja : ja = ⟨ji, t, .planned⟩ := by
          simp only [show (step s (.clientSet id t)).jobs =
            (Set.handle id t s.jobs).1 from rfl] at ha
          simp [Set.handle, hb, JobMap.set] at ha
          exact ha.symm
        refine ⟨?_, ?_, ?_⟩
        · rw [hja]
          right; right; right; right; left
          exact ⟨rfl, rfl⟩
        · intro rid ok pok heq
          cases heq
        · intro cid' t' heq
          intro hc
          cases hc
      | failed =>
        have hja : ja = ⟨ji, t, .planned⟩ := by
          simp only [show (step s (.clientSet id t)).jobs =
            (Set.handle id t s.jobs).1 from rfl] at ha
          simp [Set.handle, hb, JobMap.set] at ha
          exact ha.symm
        refine ⟨?_, ?_, ?_⟩
        · rw [hja]
          right; right; right; right; right; left
          exact ⟨rfl, rfl⟩
        · intro rid ok pok heq
          cases heq
        · intro cid' t' heq
          intro hc
          cases hc
    · rw [show (step s (.clientSet cid t)).jobs =
        (Set.handle cid t s.jobs).1 from rfl,
        setHandle_other cid t s.jobs id hid, hb] at ha
      exact absurd (Option.some_inj.mp ha).symm hne
  | trigger tid paired pok =>
    by_cases hid : id = tid
    · subst hid
      unfold step at ha
      dsimp only at ha
      rw [hb] at ha
      dsimp only at ha
      by_cases hpl : jb.status = .planned
      · rw [if_pos hpl] at ha
        cases paired with
        | true =>
          cases pok with
          | true =>
            rw [if_pos rfl, if_pos rfl] at ha
            dsimp only at ha
            have hja : ja = ⟨id, jb.execution, .triggered⟩ := by
              simp [JobMap.set] at ha
              exact ha.symm
            refine ⟨?_, ?_, ?_⟩
            · rw [hja, hpl]
              left
              exact ⟨rfl, rfl⟩
            · intro rid ok pok' heq
              cases heq
            · intro cid' t' heq
              cases heq
          | false =>
            rw [if_pos rfl, if_neg (by simp)] at ha
            rw [hb] at ha
            exact absurd (Option.some_inj.mp ha).symm hne
        | false =>
          cases pok with
          | true =>
            rw [if_neg (by simp), if_pos rfl] at ha
            dsimp only at ha
            have hja : ja = ⟨id, jb.execution, .failed⟩ := by
              simp [JobMap.set] at ha
              exact ha.symm
            refine ⟨?_, ?_, ?_⟩
            · rw [hja, hpl]
              right; left
              exact ⟨rfl, rfl⟩
            · intro rid ok pok' heq
              cases heq
            · intro cid' t' heq
              cases heq
          | false =>
            rw [if_neg (by simp), if_neg (by simp)] at ha
            rw [hb] at ha
            exact absurd (Option.some_inj.mp ha).symm hne
      · rw [if_neg hpl] at ha
        rw [hb] at ha
        exact absurd (Option.some_inj.mp ha).symm hne
    · rw [step_trigger_other s tid paired pok id hid, hb] at ha
      exact absurd (Option.some_inj.mp ha).symm hne
  | result rid ok pok =>
    by_cases hid : id = rid
    · subst hid
      unfold step at ha
      dsimp only at ha
      by_cases hp : id ∈ s.pending
      · rw [if_pos hp] at ha
        rw [hb] at ha
        dsimp only at ha
        cases pok with
        | true =>
          rw [if_pos rfl] at ha
          dsimp only at ha
          have hja : ja = ⟨id, jb.execution,
              if ok then .executed else .failed⟩ := by
            simp [JobMap.set] at ha
            exact ha.symm
          obtain ⟨j', hj', htr⟩ := hinv.pend_triggered id hp
          rw [hb] at hj'
          have hjb := Option.some_inj.mp hj'
          rw [← hjb] at htr
          refine ⟨?_, ?_, ?_⟩
          · rw [hja, htr]
            cases ok with
            | true =>
              right; right; left
              exact ⟨rfl, rfl⟩
            | false =>
              right; right; right; left
              exact ⟨rfl, rfl⟩
          · intro rid' ok' pok' heq
            exact htr
          · intro cid' t' heq
            cases heq
        | false =>
          rw [if_neg (by simp)] at ha
          rw [hb] at ha
          exact absurd (Option.some_inj.mp ha).symm hne
      · rw [if_neg hp] at ha
        rw [hb] at ha
        exact absurd (Option.some_inj.mp ha).symm hne
    · rw [step_result_other s rid ok pok id hid, hb] at ha
      exact absurd (Option.some_inj.mp ha).symm hne

/-- C5: for any interleaving of client instructions, trigger steps and
processor execution results, every observed change to a job's entry moves
its status along the §4.2 table (Planned→Triggered, Planned→Failed,
Triggered→Executed, Triggered→Failed, Executed→Planned, Failed→Planned,
Planned→Planned); in particular a processor result only ever changes a job
whose current status is Triggered, and a client Job Set never changes a
Triggered job. -/
theorem status_transition_closure (acts : List Act) (a : Act) (id : Bytes)
    (jb ja : Job)
    (hb : (acts.foldl step sysInit).jobs id = some jb)
    (ha : (step (acts.foldl step sysInit) a).jobs id = some ja)
    (hne : ja ≠ jb) :
    allowedTransition jb.status ja.status ∧
    (∀ rid ok pok, a = .result rid ok pok → jb.status = .triggered) ∧
    (∀ cid t, a = .clientSet cid t → jb.status ≠ .triggered) :=
  step_transition (sysInv_foldl acts) a id jb ja hb ha hne

/-- C5 witness: after a client Set of job `[0x61]`, a trigger step moves it
Planned→Triggered; `status_transition_closure` instantiated there. -/
theorem status_transition_closure_witness :
    allowedTransition (Job.mk [97] 0 .planned).status
        (Job.mk [97] 0 .triggered).status ∧
    (∀ rid ok pok, Act.trigger [97] true true = .result rid ok pok →
        (Job.mk [97] 0 .planned).status = .triggered) ∧
    (∀ cid t, Act.trigger [97] true true = .clientSet cid t →
        (Job.mk [97] 0 .planned).status ≠ .triggered) :=
  status_transition_closure [.clientSet [97] 0] (.trigger [97] true true) [97]
    ⟨[97], 0, .planned⟩ ⟨[97], 0, .triggered⟩ rfl rfl (by decide)

/-! ## Compaction scheduling (C10)

The flush logic of `persistence::Storage::persist`: after writing the
entry and bumping `logfile_size`, the tracked background process is polled
(`Success`/`Failure` clear the slot, `Running` keeps it, `Lost` restarts
it), and then, if no process is tracked and `logfile_size ≥ 5000`, the
storage flushes: `rename("logfile", "logfile.to_compress")` — a rename that
silently overwrites any existing `logfile.to_compress` — and starts a new
background compression.  `compress` deletes `logfile.to_compress` as its
final step, so a `Success` report implies the file is gone while every
`Failure` leaves it in place. -/

/-- The persistence storage's state for the flush logic: the entry count of
the current `logfile`, whether `logfile.to_compress` exists on disk, and
whether a background process is tracked (`self.process.is_some()`). -/
structure PersistState where
  logfileSize : Nat
  toCompress : Bool
  tracked : Bool
deriving DecidableEq, Repr

/-- The polled status of the background task, chosen by the environment
(`notTracked` is the placeholder when no process is tracked). -/
inductive Poll where
  | running
  | success
  | failure
  | lost
  | notTracked
deriving DecidableEq, Repr

/-- One `persist` call (with a successful logfile write): bump the size,
poll the tracked process, and flush when untracked and over the threshold.
The returned flag reports that this call started a flush while a previous
`logfile.to_compress` still existed (the rename then discards it). -/
def persistStep (st : PersistState) (p : Poll) : PersistState × Bool :=
  let st1 : PersistState := { st with logfileSize := st.logfileSize + 1 }
  let st2 : PersistState :=
    if st1.tracked then
      match p with
      | .success => { st1 with tracked := false, toCompress := false }
      | .failure => { st1 with tracked := false }
      | .running => st1
      | .lost => st1
      | .notTracked => st1
    else st1
  if ¬ st2.tracked ∧ 5000 ≤ st2.logfileSize then
    (⟨0, true, true⟩, st2.toCompress)
  else (st2, false)

/-- One persist call threaded through an accumulator recording whether any
call so far flushed over an existing `logfile.to_compress`. -/
def persistAcc (acc : PersistState × Bool) (p : Poll) : PersistState × Bool :=
  ((persistStep acc.1 p).1, acc.2 || (persistStep acc.1 p).2)

/-- A sequence of persist calls, accumulating whether any of them flushed
over an existing `logfile.to_compress`. -/
def runPersist (ps : List Poll) (st : PersistState) : PersistState × Bool :=
  ps.foldl persistAcc (st, false)

theorem persistStep_untracked (k : Nat) (tc : Bool) (p : Poll) :
    persistStep ⟨k, tc, false⟩ p =
      if 5000 ≤ k + 1 then (⟨0, true, true⟩, tc) else (⟨k + 1, tc, false⟩, false) := by
  by_cases h : 5000 ≤ k + 1 <;> simp [persistStep, h]

theorem persistPhase (n : Nat) : ∀ (k : Nat) (tc b : Bool), k + n + 1 = 5000 →
    (List.replicate (n + 1) Poll.notTracked).foldl persistAcc (⟨k, tc, false⟩, b) =
      (⟨0, true, true⟩, b || tc) := by
  induction n with
  | zero =>
    intro k tc b h
    have hk : 5000 ≤ k + 1 := by omega
    rw [show List.replicate 1 Poll.notTracked = [Poll.notTracked] from rfl,
      List.foldl_cons, List.foldl_nil]
    unfold persistAcc
    rw [persistStep_untracked, if_pos hk]
  | succ n ih =>
    intro k tc b h
    rw [List.replicate_succ, List.foldl_cons]
    have hk : ¬ (5000 ≤ k + 1) := by omega
    have hstep : persistAcc (⟨k, tc, false⟩, b) .notTracked =
        (⟨k + 1, tc, false⟩, b) := by
      unfold persistAcc
      rw [persistStep_untracked, if_neg hk, Bool.or_false]
    rw [hstep]
    exact ih (k + 1) tc b (by omega)

/-- C10 (refuted — the code loses the pending compaction): starting from a
fresh storage, 5000 persists trigger the first flush; the background
compression then reports `Failure`, which clears the process slot while
`logfile.to_compress` remains on disk; 5000 further persists reach the
threshold again and the storage flushes — renaming `logfile` over the still
existing `logfile.to_compress` — instead of blocking or resuming the
pending compaction. -/
theorem flush_overwrites_pending_compaction :
    (runPersist (List.replicate 5000 .notTracked ++ [.failure] ++
      List.replicate 4999 .notTracked) ⟨0, false, false⟩).2 = true := by
  unfold runPersist
  rw [List.foldl_append, List.foldl_append]
  rw [show (5000 : Nat) = 4999 + 1 from by norm_num]
  rw [persistPhase 4999 0 false false (by omega)]
  simp only [Bool.false_or]
  have h2 : persistAcc (⟨0, true, true⟩, false) .failure = (⟨1, true, false⟩, false) := by
    decide
  rw [List.foldl_cons, List.foldl_nil, h2]
  rw [show (4999 : Nat) = 4998 + 1 from by norm_num]
  rw [persistPhase 4998 1 true false (by omega)]
  rfl

end Kairoi
